import Mathlib

/-!
A shallow embedding of the byte-pair-encoding tokenizer implemented in `src/bpe.cpp`,
together with proofs about its training, encoding and decoding behaviour.

Modelling conventions.

* C++ strings are byte lists (`List Nat`, elements below 256 where it matters); the
  cast from unsigned char to int in `string_to_byte` is the identity on byte values.
* An unordered_map is an association list, read with `lookupM` (the `find` calls),
  written with `mapInsert` (assignment through the index operator, which overwrites the
  value of an existing key) and read-or-defaulted with `getOrInsert` (a read through the
  index operator, which inserts a default for a missing key and returns it).
  The iteration order of an unordered map is unspecified; every place where the C++
  code depends on it (the max_element scan of `most_frequent_pair`, the alternation
  order of the special-token pattern in `encode`) is modelled by quantifying over
  association lists or over an explicit selection function.
* Executions that leave the modelled fragment return `none`.  This happens exactly at
  the size_t underflow in the loops of the form
  `for (size_t i = 0; i < indices.size() - 1; ++i)`: with `size() == 0` the bound wraps
  to `2 ^ 64 - 1` and `indices[0]` is dereferenced out of bounds (undefined behaviour).
  That loop shape occurs in `most_frequent_pair` (reached by `train` on an empty
  corpus) and in `_encode_non_special` (reached by `encode` on an empty text or on an
  empty span produced by the special-token split).  Registered special tokens that are
  empty, or that contain the backslash byte 92 (which the escaping step of `encode`
  leaves unescaped, so that such tokens are not matched literally), are also outside
  the modelled fragment.
-/

/-- Association list lookup, modelling `find` on an unordered_map. -/
def lookupM {α β : Type} [DecidableEq α] : List (α × β) → α → Option β
  | [], _ => none
  | (k, v) :: m, a => if k = a then some v else lookupM m a

/-- Association list assignment, modelling `m[k] = v`: the value of an existing key is
overwritten in place, a missing key is appended. -/
def mapInsert {α β : Type} [DecidableEq α] : List (α × β) → α → β → List (α × β)
  | [], a, b => [(a, b)]
  | (k, v) :: m, a, b => if k = a then (k, b) :: m else (k, v) :: mapInsert m a b

/-- A read through `m[k]`, which inserts a default for a missing key and returns it. -/
def getOrInsert {α β : Type} [DecidableEq α] (m : List (α × β)) (a : α) (b : β) :
    β × List (α × β) :=
  match lookupM m a with
  | some v => (v, m)
  | none => (b, m ++ [(a, b)])

theorem lookupM_eq_none {α β : Type} [DecidableEq α] {m : List (α × β)} {a : α}
    (h : ∀ p ∈ m, p.1 ≠ a) : lookupM m a = none := by
  induction m with
  | nil => rfl
  | cons p m ih =>
    obtain ⟨k, v⟩ := p
    simp only [lookupM]
    rw [if_neg (h (k, v) (List.mem_cons_self _ _))]
    exact ih fun q hq => h q (List.mem_cons_of_mem _ hq)

theorem lookupM_mem {α β : Type} [DecidableEq α] {m : List (α × β)} {a : α} {v : β}
    (h : lookupM m a = some v) : (a, v) ∈ m := by
  induction m with
  | nil => simp [lookupM] at h
  | cons p m ih =>
    obtain ⟨k, w⟩ := p
    simp only [lookupM] at h
    by_cases hk : k = a
    · rw [if_pos hk] at h
      injection h with h
      subst hk; subst h
      exact List.mem_cons_self _ _
    · rw [if_neg hk] at h
      exact List.mem_cons_of_mem _ (ih h)

theorem getOrInsert_of_isSome {α β : Type} [DecidableEq α] {m : List (α × β)} {a : α}
    (b : β) (h : (lookupM m a).isSome = true) :
    getOrInsert m a b = ((lookupM m a).getD b, m) := by
  unfold getOrInsert
  cases hm : lookupM m a with
  | none => rw [hm] at h; simp at h
  | some v => simp [hm]

theorem lookupM_mapInsert_self {α β : Type} [DecidableEq α] (m : List (α × β)) (a : α)
    (b : β) : lookupM (mapInsert m a b) a = some b := by
  induction m with
  | nil => simp [mapInsert, lookupM]
  | cons p m ih =>
    obtain ⟨k, v⟩ := p
    by_cases hk : k = a
    · simp [mapInsert, hk, lookupM]
    · simp [mapInsert, hk, lookupM, ih]

theorem lookupM_mapInsert_ne {α β : Type} [DecidableEq α] (m : List (α × β)) {a c : α}
    (b : β) (h : c ≠ a) : lookupM (mapInsert m a b) c = lookupM m c := by
  induction m with
  | nil =>
    simp only [mapInsert, lookupM]
    rw [if_neg fun hh => h hh.symm]
  | cons p m ih =>
    obtain ⟨k, v⟩ := p
    by_cases hk : k = a
    · subst hk
      simp only [mapInsert, if_pos rfl, lookupM]
      rw [if_neg fun hh => h hh.symm, if_neg fun hh => h hh.symm]
    · simp only [mapInsert, if_neg hk, lookupM]
      by_cases hc : k = c
      · simp [hc]
      · simp [hc, ih]

theorem mapInsert_mem {α β : Type} [DecidableEq α] {m : List (α × β)} {a : α} {b : β}
    {q : α × β} (h : q ∈ mapInsert m a b) : q ∈ m ∨ q = (a, b) := by
  induction m with
  | nil => simp [mapInsert] at h; simp [h]
  | cons p m ih =>
    obtain ⟨k, v⟩ := p
    by_cases hk : k = a
    · subst hk
      simp only [mapInsert] at h
      rw [if_true, List.mem_cons] at h
      rcases h with h1 | h1
      · exact Or.inr h1
      · exact Or.inl (List.mem_cons_of_mem _ h1)
    · simp only [mapInsert] at h
      rw [if_neg hk, List.mem_cons] at h
      rcases h with h1 | h1
      · subst h1
        exact Or.inl (List.mem_cons_self _ _)
      · rcases ih h1 with h' | h'
        · exact Or.inl (List.mem_cons_of_mem _ h')
        · exact Or.inr h'

/-- The state of a `BPETokenizer` object: the construction bound and the five mutable
fields of the C++ class. -/
structure BPETokenizer where
  max_vocab_size : Nat
  pairs : List ((Nat × Nat) × Nat)
  id_to_token : List (Nat × List Nat)
  next_id : Nat
  special_to_id : List (List Nat × Nat)
  id_to_special : List (Nat × List Nat)
deriving DecidableEq, Repr

/-- The 256 byte-identity entries written by `reset`. -/
def byteTable : List (Nat × List Nat) :=
  (List.range 256).map fun i => (i, [i])

/-- The state after the constructor body has run `reset()`: 256 identity entries,
counter at 256, no merges, no special tokens. -/
def init0 (maxV : Nat) : BPETokenizer :=
  { max_vocab_size := maxV
    pairs := []
    id_to_token := byteTable
    next_id := 256
    special_to_id := []
    id_to_special := [] }

/-- The constructor `BPETokenizer(max_vocab_size)`: throws invalid_argument when the
bound is at most 256, otherwise resets. -/
def mkTokenizer (maxV : Nat) : Option BPETokenizer :=
  if maxV ≤ 256 then none else some (init0 maxV)

/-- Models `vocab_size()`, which returns the id counter. -/
def vocab_size (st : BPETokenizer) : Nat := st.next_id

/-- Models `string_to_byte`: each char of the string, cast from unsigned char to int.
On byte lists this cast is the identity. -/
def string_to_byte (input : List Nat) : List Nat := input

/-- Models `register_special_token`: a string not yet present is mapped to the next id
in both direction tables and the counter advances; a present string changes nothing. -/
def register_special_token (st : BPETokenizer) (token : List Nat) : BPETokenizer :=
  if (lookupM st.special_to_id token).isSome then st
  else
    { st with
      special_to_id := mapInsert st.special_to_id token st.next_id
      id_to_special := mapInsert st.id_to_special st.next_id token
      next_id := st.next_id + 1 }

/-- The list of adjacent index pairs of a sequence, in position order: the windows that
the counting loop of `most_frequent_pair` visits. -/
def adj_pairs : List Nat → List (Nat × Nat)
  | a :: b :: r => (a, b) :: adj_pairs (b :: r)
  | _ => []

/-- Models the loop body of `merge_pair`: the while loop scans the input by index,
pushing the new id and advancing two positions where the adjacent pair matches the
selected pair, otherwise pushing the current id and advancing one position.  Under the
loop guard `i < indices.size()` the size is positive, so the size_t expression
`indices.size() - 1` agrees with the truncated subtraction on `Nat`. -/
def merge_go (indices : List Nat) (p : Nat × Nat) (n : Nat) (i : Nat) : List Nat :=
  if h : i < indices.length then
    if i < indices.length - 1 ∧ (indices.getD i 0, indices.getD (i + 1) 0) = p then
      n :: merge_go indices p n (i + 2)
    else
      indices.getD i 0 :: merge_go indices p n (i + 1)
  else []
termination_by indices.length - i
decreasing_by
  · omega
  · omega

/-- Models `merge_pair(indices, pair, new_index)`. -/
def merge_pair (indices : List Nat) (p : Nat × Nat) (n : Nat) : List Nat :=
  merge_go indices p n 0

/-- The same non-overlapping left-to-right rewriting, as a structural recursion on the
sequence; `merge_pair_eq_rec` proves that the index loop of the source computes it. -/
def mergeRec (p : Nat × Nat) (n : Nat) : List Nat → List Nat
  | [] => []
  | [x] => [x]
  | x :: y :: r => if (x, y) = p then n :: mergeRec p n r else x :: mergeRec p n (y :: r)

theorem merge_go_drop (p : Nat × Nat) (n : Nat) (l : List Nat) :
    ∀ i, merge_go l p n i = mergeRec p n (l.drop i) := by
  have H : ∀ fuel i, l.length ≤ i + fuel → merge_go l p n i = mergeRec p n (l.drop i) := by
    intro fuel
    induction fuel with
    | zero =>
      intro i hi
      rw [merge_go, dif_neg (by omega), List.drop_eq_nil_of_le (by omega)]
      rfl
    | succ fuel ih =>
      intro i hi
      by_cases h1 : i < l.length
      · have hdrop : l.drop i = l.getD i 0 :: l.drop (i + 1) := by
          rw [List.getD_eq_getElem l 0 h1]
          exact List.drop_eq_getElem_cons h1
        rw [merge_go, dif_pos h1]
        by_cases h2 : i < l.length - 1
        · have hdrop2 : l.drop (i + 1) = l.getD (i + 1) 0 :: l.drop (i + 2) := by
            rw [List.getD_eq_getElem l 0 (by omega)]
            exact List.drop_eq_getElem_cons (by omega)
          by_cases h3 : (l.getD i 0, l.getD (i + 1) 0) = p
          · rw [if_pos ⟨h2, h3⟩, hdrop, hdrop2, mergeRec, if_pos h3, ih (i + 2) (by omega)]
          · rw [if_neg (by tauto), hdrop, hdrop2, mergeRec, if_neg h3,
              ih (i + 1) (by omega), hdrop2]
        · rw [if_neg (by tauto)]
          have hnil : l.drop (i + 1) = [] := List.drop_eq_nil_of_le (by omega)
          rw [hdrop, hnil, ih (i + 1) (by omega), hnil]
          rfl
      · rw [merge_go, dif_neg h1, List.drop_eq_nil_of_le (by omega)]
        rfl
  intro i
  exact H l.length i (by omega)

theorem merge_pair_eq_rec (l : List Nat) (p : Nat × Nat) (n : Nat) :
    merge_pair l p n = mergeRec p n l := by
  rw [merge_pair, merge_go_drop, List.drop_zero]

theorem merge_pair_nil (p : Nat × Nat) (n : Nat) : merge_pair [] p n = [] := by
  rw [merge_pair_eq_rec]; rfl

theorem merge_pair_single (x : Nat) (p : Nat × Nat) (n : Nat) : merge_pair [x] p n = [x] := by
  rw [merge_pair_eq_rec]; rfl

theorem merge_pair_cons (x y : Nat) (r : List Nat) (p : Nat × Nat) (n : Nat) :
    merge_pair (x :: y :: r) p n =
      if (x, y) = p then n :: merge_pair r p n else x :: merge_pair (y :: r) p n := by
  simp only [merge_pair_eq_rec]
  rw [mergeRec]

/-- Models `most_frequent_pair`.  On an empty input the counting loop bound
`indices.size() - 1` wraps around and the loop reads out of bounds: modelled as `none`.
With one element there are no windows, the counts table stays empty and the sentinel
`{{-1, -1}, 0}` is returned: modelled as `some none` (the sentinel is unambiguous,
real ids being non-negative).  Otherwise `max_element` returns the first entry with
maximal count in the iteration order of the counts table; that order is unspecified,
so the selected pair is a parameter `pick` and the count returned with it is the true
count of the selected pair. -/
def most_frequent_pair (pick : List Nat → Nat × Nat) (indices : List Nat) :
    Option (Option ((Nat × Nat) × Nat)) :=
  if indices.isEmpty then none
  else if indices.length = 1 then some none
  else some (some (pick indices, (adj_pairs indices).count (pick indices)))

/-- What any `max_element` outcome satisfies, whatever the iteration order of the
counts table: the selected pair is one of the adjacent pairs of the sequence. -/
def pickMem (pick : List Nat → Nat × Nat) : Prop :=
  ∀ l : List Nat, 2 ≤ l.length → pick l ∈ adj_pairs l

/-- The scan of `max_element`: keep the current best entry unless a later entry has a
strictly larger count. -/
def pickBest (w : List (Nat × Nat)) : List (Nat × Nat) → (Nat × Nat) → Nat × Nat
  | [], cur => cur
  | q :: qs, cur => if w.count cur < w.count q then pickBest w qs q else pickBest w qs cur

/-- One concrete selection function, running `max_element` over the counts table in
first-occurrence order of the windows; a legitimate unordered-map iteration order,
used to instantiate `pick` on concrete runs. -/
def canonicalPick (l : List Nat) : Nat × Nat :=
  match adj_pairs l with
  | [] => (0, 0)
  | q :: qs => pickBest (adj_pairs l) qs q

theorem pickBest_mem (w : List (Nat × Nat)) :
    ∀ (qs : List (Nat × Nat)) (cur : Nat × Nat),
      pickBest w qs cur = cur ∨ pickBest w qs cur ∈ qs := by
  intro qs
  induction qs with
  | nil => intro cur; exact Or.inl rfl
  | cons q qs ih =>
    intro cur
    rw [pickBest]
    by_cases hc : w.count cur < w.count q
    · rw [if_pos hc]
      rcases ih q with h | h
      · exact Or.inr (by rw [h]; exact List.mem_cons_self _ _)
      · exact Or.inr (List.mem_cons_of_mem _ h)
    · rw [if_neg hc]
      rcases ih cur with h | h
      · exact Or.inl h
      · exact Or.inr (List.mem_cons_of_mem _ h)

theorem canonicalPick_mem : pickMem canonicalPick := by
  intro l hl
  match l, hl with
  | a :: b :: r, _ =>
    show canonicalPick (a :: b :: r) ∈ adj_pairs (a :: b :: r)
    have hc : canonicalPick (a :: b :: r) =
        pickBest (adj_pairs (a :: b :: r)) (adj_pairs (b :: r)) (a, b) := rfl
    rw [hc]
    rcases pickBest_mem (adj_pairs (a :: b :: r)) (adj_pairs (b :: r)) (a, b) with h | h
    · rw [h, adj_pairs]
      exact List.mem_cons_self _ _
    · rw [adj_pairs]
      exact List.mem_cons_of_mem _ h

/-- Models the while loop of `train`, carrying the current sequence.  The loop runs
while `vocab_size() < max_vocab_size`.  Each accepted merge rewrites the sequence with
`merge_pair`, records the rule (overwriting the value of an existing key, as
assignment through the index operator does), reads the two parent tokens through the
index operator (which inserts an empty string for a missing key), stores the
concatenated token bytes under the new id and advances the counter.  The returned
list collects one event `(pair, new_id, token_bytes)` per accepted merge, in order
(the data the verbose branch prints).  A `none` result models the out-of-bounds read
of `most_frequent_pair` on an empty sequence. -/
def train_go (pick : List Nat → Nat × Nat) (stop_early : Bool) (st : BPETokenizer)
    (indices : List Nat) (acc : List ((Nat × Nat) × Nat × List Nat)) :
    Option (BPETokenizer × List ((Nat × Nat) × Nat × List Nat)) :=
  if _h : st.next_id < st.max_vocab_size then
    match most_frequent_pair pick indices with
    | none => none
    | some none => some (st, acc.reverse)
    | some (some (p, c)) =>
      if stop_early ∧ c = 1 then some (st, acc.reverse)
      else
        train_go pick stop_early
          { st with
            pairs := mapInsert st.pairs p st.next_id
            id_to_token := mapInsert (getOrInsert (getOrInsert st.id_to_token p.1 []).2 p.2 []).2
              st.next_id
              ((getOrInsert st.id_to_token p.1 []).1 ++ (getOrInsert (getOrInsert st.id_to_token p.1 []).2 p.2 []).1)
            next_id := st.next_id + 1 }
          (merge_pair indices p st.next_id)
          ((p, st.next_id,
            (getOrInsert st.id_to_token p.1 []).1 ++ (getOrInsert (getOrInsert st.id_to_token p.1 []).2 p.2 []).1) :: acc)
  else some (st, acc.reverse)
termination_by st.max_vocab_size - st.next_id
decreasing_by
  omega

/-- Models `train(input, stop_early)`: convert the corpus to bytes and run the merge
loop starting from the empty event list. -/
def train (st : BPETokenizer) (input : List Nat) (pick : List Nat → Nat × Nat)
    (stop_early : Bool) :
    Option (BPETokenizer × List ((Nat × Nat) × Nat × List Nat)) :=
  train_go pick stop_early st (string_to_byte input) []

/-- Models one id of `decode`: the special table is consulted first; otherwise the
token table is read through the index operator, which yields an empty string for an
unknown id (and inserts that empty entry, an effect no decoded output observes). -/
def decode_one (st : BPETokenizer) (i : Nat) : List Nat :=
  match lookupM st.id_to_special i with
  | some s => s
  | none => (lookupM st.id_to_token i).getD []

/-- Models `decode`: append the bytes of every id in order. -/
def decode (st : BPETokenizer) : List Nat → List Nat
  | [] => []
  | i :: ids => decode_one st i ++ decode st ids

theorem decode_append (st : BPETokenizer) (l1 l2 : List Nat) :
    decode st (l1 ++ l2) = decode st l1 ++ decode st l2 := by
  induction l1 with
  | nil => rfl
  | cons i l1 ih =>
    rw [List.cons_append, decode, decode, ih, List.append_assoc]

/-- Models one pass of the do-while loop of `_encode_non_special`: the for loop walks
the vector once; whenever the adjacent pair at the current position is a key of
`pairs` (a `find` guard, with the value then read through the index operator), the
element is replaced by the merged id, the next element is erased and the scan resumes
after the replacement; the flag records whether the pass substituted anything. -/
def encode_pass (ps : List ((Nat × Nat) × Nat)) :
    List Nat → List Nat × Bool × List ((Nat × Nat) × Nat)
  | [] => ([], false, ps)
  | [x] => ([x], false, ps)
  | x :: y :: r =>
    if (lookupM ps (x, y)).isSome then
      ((getOrInsert ps (x, y) 0).1 :: (encode_pass (getOrInsert ps (x, y) 0).2 r).1, true,
        (encode_pass (getOrInsert ps (x, y) 0).2 r).2.2)
    else
      (x :: (encode_pass ps (y :: r)).1, (encode_pass ps (y :: r)).2.1,
        (encode_pass ps (y :: r)).2.2)

theorem encode_pass_pairs : ∀ (ps : List ((Nat × Nat) × Nat)) (l : List Nat),
    (encode_pass ps l).2.2 = ps := by
  have H : ∀ (n : Nat) (ps : List ((Nat × Nat) × Nat)) (l : List Nat), l.length ≤ n →
      (encode_pass ps l).2.2 = ps := by
    intro n
    induction n with
    | zero =>
      intro ps l hl
      match l with
      | [] => rfl
    | succ n ih =>
      intro ps l hl
      match l with
      | [] => rfl
      | [x] => rfl
      | x :: y :: r =>
        rw [encode_pass]
        by_cases hp : (lookupM ps (x, y)).isSome
        · rw [if_pos hp, getOrInsert_of_isSome _ hp]
          exact ih ps r (by simp at hl; omega)
        · rw [if_neg hp]
          exact ih ps (y :: r) (by simp at hl ⊢; omega)
  intro ps l
  exact H l.length ps l (Nat.le_refl _)

theorem encode_pass_length : ∀ (ps : List ((Nat × Nat) × Nat)) (l : List Nat),
    (encode_pass ps l).1.length ≤ l.length ∧
      ((encode_pass ps l).2.1 = true → (encode_pass ps l).1.length < l.length) := by
  have H : ∀ (n : Nat) (ps : List ((Nat × Nat) × Nat)) (l : List Nat), l.length ≤ n →
      (encode_pass ps l).1.length ≤ l.length ∧
        ((encode_pass ps l).2.1 = true → (encode_pass ps l).1.length < l.length) := by
    intro n
    induction n with
    | zero =>
      intro ps l hl
      match l with
      | [] => exact ⟨Nat.le_refl _, by intro hc; cases hc⟩
    | succ n ih =>
      intro ps l hl
      match l with
      | [] => exact ⟨Nat.le_refl _, by intro hc; cases hc⟩
      | [x] => exact ⟨Nat.le_refl _, by intro hc; cases hc⟩
      | x :: y :: r =>
        rw [encode_pass]
        by_cases hp : (lookupM ps (x, y)).isSome
        · rw [if_pos hp, getOrInsert_of_isSome _ hp]
          have hr := ih ps r (by simp at hl; omega)
          constructor
          · simp only [List.length_cons]
            have := hr.1
            simp
            omega
          · intro _
            simp only [List.length_cons]
            have := hr.1
            simp
            omega
        · rw [if_neg hp]
          have hr := ih ps (y :: r) (by simp at hl ⊢; omega)
          constructor
          · simp only [List.length_cons]
            have := hr.1
            simp at this ⊢
            omega
          · intro hc
            simp only [List.length_cons]
            have := hr.2 hc
            simp at this ⊢
            omega
  intro ps l
  exact H l.length ps l (Nat.le_refl _)

/-- Models the do-while loop of `_encode_non_special`: repeat whole passes until one
pass substitutes nothing; each substituting pass strictly shortens the sequence, which
is the termination argument. -/
def encode_loop (ps : List ((Nat × Nat) × Nat)) (l : List Nat) :
    List Nat × List ((Nat × Nat) × Nat) :=
  if h : (encode_pass ps l).2.1 = true then
    encode_loop (encode_pass ps l).2.2 (encode_pass ps l).1
  else ((encode_pass ps l).1, (encode_pass ps l).2.2)
termination_by l.length
decreasing_by
  exact (encode_pass_length ps l).2 h

/-- Models `_encode_non_special`: convert the span to bytes; an empty span makes the
for-loop bound `indices.size() - 1` wrap around and the first iteration read out of
bounds (`none`); otherwise run passes to the fixpoint. -/
def _encode_non_special (ps : List ((Nat × Nat) × Nat)) (input : List Nat) :
    Option (List Nat) × List ((Nat × Nat) × Nat) :=
  if (string_to_byte input).isEmpty then (none, ps)
  else (some (encode_loop ps (string_to_byte input)).1,
    (encode_loop ps (string_to_byte input)).2)

theorem encode_loop_pairs : ∀ (ps : List ((Nat × Nat) × Nat)) (l : List Nat),
    (encode_loop ps l).2 = ps := by
  have H : ∀ (n : Nat) (ps : List ((Nat × Nat) × Nat)) (l : List Nat), l.length ≤ n →
      (encode_loop ps l).2 = ps := by
    intro n
    induction n with
    | zero =>
      intro ps l hl
      rw [encode_loop]
      match l with
      | [] => rw [dif_neg (by rw [encode_pass]; simp)]; rw [encode_pass]
    | succ n ih =>
      intro ps l hl
      rw [encode_loop]
      by_cases hf : (encode_pass ps l).2.1 = true
      · rw [dif_pos hf, encode_pass_pairs]
        exact ih ps (encode_pass ps l).1 (by have := (encode_pass_length ps l).2 hf; omega)
      · rw [dif_neg hf, encode_pass_pairs]
  intro ps l
  exact H l.length ps l (Nat.le_refl _)

theorem encode_pass_no_change : ∀ (ps : List ((Nat × Nat) × Nat)) (l : List Nat),
    (encode_pass ps l).2.1 = false →
      (encode_pass ps l).1 = l ∧ ∀ q ∈ adj_pairs l, lookupM ps q = none := by
  have H : ∀ (n : Nat) (ps : List ((Nat × Nat) × Nat)) (l : List Nat), l.length ≤ n →
      (encode_pass ps l).2.1 = false →
        (encode_pass ps l).1 = l ∧ ∀ q ∈ adj_pairs l, lookupM ps q = none := by
    intro n
    induction n with
    | zero =>
      intro ps l hl hf
      match l with
      | [] => exact ⟨rfl, by intro q hq; cases hq⟩
    | succ n ih =>
      intro ps l hl hf
      match l with
      | [] => exact ⟨rfl, by intro q hq; cases hq⟩
      | [x] => exact ⟨rfl, by intro q hq; cases hq⟩
      | x :: y :: r =>
        rw [encode_pass] at hf ⊢
        by_cases hp : (lookupM ps (x, y)).isSome
        · rw [if_pos hp] at hf
          cases hf
        · rw [if_neg hp] at hf ⊢
          simp only at hf
          have hr := ih ps (y :: r) (by simp at hl ⊢; omega) hf
          refine ⟨by simp only [hr.1], ?_⟩
          intro q hq
          rw [adj_pairs] at hq
          rcases List.mem_cons.mp hq with h1 | h1
          · subst h1
            exact Option.not_isSome_iff_eq_none.mp hp
          · exact hr.2 q h1
  intro ps l
  exact H l.length ps l (Nat.le_refl _)

theorem encode_loop_fixpoint : ∀ (ps : List ((Nat × Nat) × Nat)) (l : List Nat),
    ∀ q ∈ adj_pairs (encode_loop ps l).1, lookupM ps q = none := by
  have H : ∀ (n : Nat) (ps : List ((Nat × Nat) × Nat)) (l : List Nat), l.length ≤ n →
      ∀ q ∈ adj_pairs (encode_loop ps l).1, lookupM ps q = none := by
    intro n
    induction n with
    | zero =>
      intro ps l hl
      match l with
      | [] =>
        rw [encode_loop, dif_neg (by rw [encode_pass]; simp), encode_pass]
        intro q hq
        cases hq
    | succ n ih =>
      intro ps l hl
      rw [encode_loop]
      by_cases hf : (encode_pass ps l).2.1 = true
      · rw [dif_pos hf, encode_pass_pairs]
        exact ih ps (encode_pass ps l).1 (by have := (encode_pass_length ps l).2 hf; omega)
      · rw [dif_neg hf]
        have hr := encode_pass_no_change ps l (Bool.not_eq_true _ |>.mp hf)
        intro q hq
        rw [hr.1] at hq
        exact hr.2 q hq
  intro ps l
  exact H l.length ps l (Nat.le_refl _)

theorem encode_pass_decode (st : BPETokenizer)
    (H : ∀ x y n, lookupM st.pairs (x, y) = some n →
      decode_one st n = decode_one st x ++ decode_one st y) :
    ∀ l, decode st (encode_pass st.pairs l).1 = decode st l := by
  have HH : ∀ (n : Nat) (l : List Nat), l.length ≤ n →
      decode st (encode_pass st.pairs l).1 = decode st l := by
    intro n
    induction n with
    | zero =>
      intro l hl
      match l with
      | [] => rfl
    | succ n ih =>
      intro l hl
      match l with
      | [] => rfl
      | [x] => rfl
      | x :: y :: r =>
        rw [encode_pass]
        by_cases hp : (lookupM st.pairs (x, y)).isSome
        · rw [if_pos hp, getOrInsert_of_isSome _ hp]
          obtain ⟨m, hm⟩ := Option.isSome_iff_exists.mp hp
          rw [hm]
          show decode st (m :: (encode_pass st.pairs r).1) = decode st (x :: y :: r)
          rw [decode, decode, decode, ih r (by simp at hl; omega), H x y m hm,
            List.append_assoc]
        · rw [if_neg hp]
          show decode st (x :: (encode_pass st.pairs (y :: r)).1) = decode st (x :: y :: r)
          rw [decode, ih (y :: r) (by simp at hl ⊢; omega)]
          rfl
  intro l
  exact HH l.length l (Nat.le_refl _)

theorem encode_loop_decode (st : BPETokenizer)
    (H : ∀ x y n, lookupM st.pairs (x, y) = some n →
      decode_one st n = decode_one st x ++ decode_one st y) :
    ∀ l, decode st (encode_loop st.pairs l).1 = decode st l := by
  have HH : ∀ (n : Nat) (l : List Nat), l.length ≤ n →
      decode st (encode_loop st.pairs l).1 = decode st l := by
    intro n
    induction n with
    | zero =>
      intro l hl
      match l with
      | [] =>
        rw [encode_loop, dif_neg (by rw [encode_pass]; simp), encode_pass]
    | succ n ih =>
      intro l hl
      rw [encode_loop]
      by_cases hf : (encode_pass st.pairs l).2.1 = true
      · rw [dif_pos hf, encode_pass_pairs]
        rw [ih (encode_pass st.pairs l).1
          (by have := (encode_pass_length st.pairs l).2 hf; omega)]
        exact encode_pass_decode st H l
      · rw [dif_neg hf]
        exact encode_pass_decode st H l
  intro l
  exact HH l.length l (Nat.le_refl _)

theorem decode_self (st : BPETokenizer) :
    ∀ l : List Nat, (∀ b ∈ l, decode_one st b = [b]) → decode st l = l := by
  intro l
  induction l with
  | nil => intro _; rfl
  | cons b l ih =>
    intro hb
    rw [decode, hb b (List.mem_cons_self _ _), ih fun c hc => hb c (List.mem_cons_of_mem _ hc)]
    rfl

theorem lookupM_append {α β : Type} [DecidableEq α] (m1 m2 : List (α × β)) (a : α) :
    lookupM (m1 ++ m2) a = (lookupM m1 a).or (lookupM m2 a) := by
  induction m1 with
  | nil => rw [List.nil_append, lookupM, Option.none_or]
  | cons p m ih =>
    obtain ⟨k, v⟩ := p
    by_cases hk : k = a
    · rw [List.cons_append, lookupM, if_pos hk, lookupM, if_pos hk]
      rfl
    · rw [List.cons_append, lookupM, if_neg hk, lookupM, if_neg hk, ih]

theorem lookupM_byteTable {b : Nat} (hb : b < 256) : lookupM byteTable b = some [b] := by
  have H : ∀ (n c : Nat), c < n →
      lookupM ((List.range n).map fun i => (i, [i])) c = some [c] := by
    intro n
    induction n with
    | zero => intro c hc; omega
    | succ n ih =>
      intro c hc
      rw [List.range_succ, List.map_append, lookupM_append]
      by_cases hcn : c < n
      · rw [ih c hcn]
        rfl
      · have hc2 : c = n := by omega
        subst hc2
        rw [lookupM_eq_none (fun p hp => ?_)]
        · rw [Option.none_or, List.map_singleton, lookupM, if_pos rfl]
        · obtain ⟨i, hi, hpi⟩ := List.mem_map.mp hp
          rw [← hpi]
          exact Nat.ne_of_lt (List.mem_range.mp hi)
  exact H 256 b hb

theorem byteTable_key_lt {p : Nat × List Nat} (hp : p ∈ byteTable) : p.1 < 256 := by
  obtain ⟨i, hi, hpi⟩ := List.mem_map.mp hp
  rw [← hpi]
  exact List.mem_range.mp hi

/-- The state invariant every reachable `BPETokenizer` satisfies: byte identities are
present in the token table; every key of either id-indexed table is below the
counter; special ids are at least 256 and the two special tables agree; and every
recorded merge rule maps to the concatenation of the tokens of its parents, with none
of its three ids present in the special table. -/
def VocabInv (st : BPETokenizer) : Prop :=
  (∀ b, b < 256 → lookupM st.id_to_token b = some [b]) ∧
  256 ≤ st.next_id ∧
  (∀ p ∈ st.id_to_token, p.1 < st.next_id) ∧
  (∀ p ∈ st.id_to_special, 256 ≤ p.1 ∧ p.1 < st.next_id) ∧
  (∀ p ∈ st.special_to_id, lookupM st.id_to_special p.2 = some p.1 ∧ p.2 < st.next_id) ∧
  (∀ q ∈ st.pairs,
    lookupM st.id_to_special q.1.1 = none ∧ lookupM st.id_to_special q.1.2 = none ∧
    lookupM st.id_to_special q.2 = none ∧
    (lookupM st.id_to_token q.1.1).isSome ∧ (lookupM st.id_to_token q.1.2).isSome ∧
    lookupM st.id_to_token q.2 =
      some ((lookupM st.id_to_token q.1.1).getD [] ++ (lookupM st.id_to_token q.1.2).getD []))

theorem VocabInv_init0 (maxV : Nat) : VocabInv (init0 maxV) := by
  refine ⟨?_, ?_, ?_, ?_, ?_, ?_⟩
  · intro b hb
    exact lookupM_byteTable hb
  · exact Nat.le_refl _
  · intro p hp
    exact byteTable_key_lt hp
  · intro p hp
    cases hp
  · intro p hp
    cases hp
  · intro q hq
    cases hq

theorem VocabInv_decode_one_byte {st : BPETokenizer} (h : VocabInv st) {b : Nat} (hb : b < 256) :
    decode_one st b = [b] := by
  obtain ⟨h1, _, _, h4, _, _⟩ := h
  have hs : lookupM st.id_to_special b = none :=
    lookupM_eq_none fun p hp => by have := (h4 p hp).1; omega
  simp only [decode_one, hs, h1 b hb]
  rfl

theorem VocabInv_pairs_decode {st : BPETokenizer} (h : VocabInv st) :
    ∀ x y n, lookupM st.pairs (x, y) = some n →
      decode_one st n = decode_one st x ++ decode_one st y := by
  intro x y n hn
  obtain ⟨_, _, _, _, _, h6⟩ := h
  have hq := h6 ((x, y), n) (lookupM_mem hn)
  obtain ⟨hx, hy, hn2, _, _, htok⟩ := hq
  simp only [decode_one, hx, hy, hn2, htok]
  rfl

theorem VocabInv_register (st : BPETokenizer) (t : List Nat) (h : VocabInv st) :
    VocabInv (register_special_token st t) := by
  obtain ⟨h1, h2, h3, h4, h5, h6⟩ := h
  have keylt : ∀ i, (lookupM st.id_to_token i).isSome = true → i < st.next_id := by
    intro i hi
    obtain ⟨v, hv⟩ := Option.isSome_iff_exists.mp hi
    exact h3 (i, v) (lookupM_mem hv)
  rw [register_special_token]
  by_cases hs : (lookupM st.special_to_id t).isSome
  · rw [if_pos hs]
    exact ⟨h1, h2, h3, h4, h5, h6⟩
  · rw [if_neg hs]
    unfold VocabInv
    dsimp only
    refine ⟨h1, by omega, fun p hp => by have := h3 p hp; omega, ?_, ?_, ?_⟩
    · intro p hp
      rcases mapInsert_mem hp with hp1 | hp1
      · have := h4 p hp1
        omega
      · rw [hp1]
        exact ⟨h2, by omega⟩
    · intro p hp
      rcases mapInsert_mem hp with hp1 | hp1
      · have hlt := (h5 p hp1).2
        refine ⟨?_, by omega⟩
        rw [lookupM_mapInsert_ne _ _ (by omega)]
        exact (h5 p hp1).1
      · rw [hp1]
        exact ⟨lookupM_mapInsert_self _ _ _, by omega⟩
    · intro q hq
      have hq6 := h6 q hq
      obtain ⟨hx, hy, hn2, ht1, ht2, htok⟩ := hq6
      have lt1 : q.1.1 < st.next_id := keylt _ ht1
      have lt2 : q.1.2 < st.next_id := keylt _ ht2
      have lt3 : q.2 < st.next_id := keylt _ (by rw [htok]; rfl)
      refine ⟨?_, ?_, ?_, ht1, ht2, htok⟩
      · rw [lookupM_mapInsert_ne _ _ (by omega)]; exact hx
      · rw [lookupM_mapInsert_ne _ _ (by omega)]; exact hy
      · rw [lookupM_mapInsert_ne _ _ (by omega)]; exact hn2

theorem adj_pairs_mem_left : ∀ (l : List Nat), ∀ q ∈ adj_pairs l, q.1 ∈ l ∧ q.2 ∈ l := by
  intro l
  induction l with
  | nil => intro q hq; cases hq
  | cons a t ih =>
    intro q hq
    match t with
    | [] => cases hq
    | b :: r =>
      rw [adj_pairs] at hq
      rcases List.mem_cons.mp hq with h1 | h1
      · subst h1
        exact ⟨List.mem_cons_self _ _, List.mem_cons_of_mem _ (List.mem_cons_self _ _)⟩
      · have := ih q h1
        exact ⟨List.mem_cons_of_mem _ this.1, List.mem_cons_of_mem _ this.2⟩

theorem adj_pairs_cons_subset (c : Nat) (w : List Nat) :
    ∀ q ∈ adj_pairs w, q ∈ adj_pairs (c :: w) := by
  intro q hq
  match w with
  | [] => cases hq
  | d :: w' =>
    rw [adj_pairs]
    exact List.mem_cons_of_mem _ hq

theorem mergeRec_ne_nil (p : Nat × Nat) (n a : Nat) (l : List Nat) :
    mergeRec p n (a :: l) ≠ [] := by
  match l with
  | [] => rw [mergeRec]; simp
  | b :: r =>
    rw [mergeRec]
    by_cases hp : (a, b) = p
    · rw [if_pos hp]; simp
    · rw [if_neg hp]; simp

theorem mergeRec_head (p : Nat × Nat) (n a : Nat) (l : List Nat) :
    ∀ z t, mergeRec p n (a :: l) = z :: t → z = a ∨ z = n := by
  intro z t hz
  match l with
  | [] =>
    rw [mergeRec] at hz
    injection hz with h1 _
    exact Or.inl h1.symm
  | b :: r =>
    rw [mergeRec] at hz
    by_cases hp : (a, b) = p
    · rw [if_pos hp] at hz
      injection hz with h1 _
      exact Or.inr h1.symm
    · rw [if_neg hp] at hz
      injection hz with h1 _
      exact Or.inl h1.symm

theorem mergeRec_elem (p : Nat × Nat) (n : Nat) :
    ∀ l, ∀ x ∈ mergeRec p n l, x ∈ l ∨ x = n := by
  have H : ∀ (k : Nat) (l : List Nat), l.length ≤ k → ∀ x ∈ mergeRec p n l, x ∈ l ∨ x = n := by
    intro k
    induction k with
    | zero =>
      intro l hl x hx
      match l with
      | [] => cases hx
    | succ k ih =>
      intro l hl x hx
      match l with
      | [] => cases hx
      | [a] => exact Or.inl hx
      | a :: b :: r =>
        rw [mergeRec] at hx
        by_cases hp : (a, b) = p
        · rw [if_pos hp] at hx
          rcases List.mem_cons.mp hx with h1 | h1
          · exact Or.inr h1
          · rcases ih r (by simp at hl; omega) x h1 with h2 | h2
            · exact Or.inl (List.mem_cons_of_mem _ (List.mem_cons_of_mem _ h2))
            · exact Or.inr h2
        · rw [if_neg hp] at hx
          rcases List.mem_cons.mp hx with h1 | h1
          · exact Or.inl (h1 ▸ List.mem_cons_self _ _)
          · rcases ih (b :: r) (by simp at hl ⊢; omega) x h1 with h2 | h2
            · exact Or.inl (List.mem_cons_of_mem _ h2)
            · exact Or.inr h2
  intro l
  exact H l.length l (Nat.le_refl _)

theorem adj_pairs_mergeRec (p : Nat × Nat) (n : Nat) :
    ∀ l, ∀ q ∈ adj_pairs (mergeRec p n l), q ∈ adj_pairs l ∨ q.1 = n ∨ q.2 = n := by
  have H : ∀ (k : Nat) (l : List Nat), l.length ≤ k →
      ∀ q ∈ adj_pairs (mergeRec p n l), q ∈ adj_pairs l ∨ q.1 = n ∨ q.2 = n := by
    intro k
    induction k with
    | zero =>
      intro l hl q hq
      match l with
      | [] => cases hq
    | succ k ih =>
      intro l hl q hq
      match l with
      | [] => cases hq
      | [a] => cases hq
      | a :: b :: r =>
        rw [mergeRec] at hq
        by_cases hp : (a, b) = p
        · rw [if_pos hp] at hq
          match hm : mergeRec p n r with
          | [] => rw [hm] at hq; cases hq
          | m0 :: M =>
            rw [hm, adj_pairs] at hq
            rcases List.mem_cons.mp hq with h1 | h1
            · subst h1
              exact Or.inr (Or.inl rfl)
            · rw [← hm] at h1
              rcases ih r (by simp at hl; omega) q h1 with h2 | h2
              · exact Or.inl (adj_pairs_cons_subset _ _ _
                  (adj_pairs_cons_subset _ _ _ h2))
              · exact Or.inr h2
        · rw [if_neg hp] at hq
          match hm : mergeRec p n (b :: r) with
          | [] => exact absurd hm (mergeRec_ne_nil p n b r)
          | m0 :: M =>
            rw [hm, adj_pairs] at hq
            rcases List.mem_cons.mp hq with h1 | h1
            · subst h1
              rcases mergeRec_head p n b r m0 M hm with h2 | h2
              · subst h2
                rw [adj_pairs]
                exact Or.inl (List.mem_cons_self _ _)
              · exact Or.inr (Or.inr h2)
            · rw [← hm] at h1
              rcases ih (b :: r) (by simp at hl ⊢; omega) q h1 with h2 | h2
              · exact Or.inl (adj_pairs_cons_subset _ _ _ h2)
              · exact Or.inr h2
  intro l
  exact H l.length l (Nat.le_refl _)

theorem mergeRec_not_adj (p : Nat × Nat) (n : Nat) (hn1 : p.1 ≠ n) (hn2 : p.2 ≠ n) :
    ∀ l, p ∉ adj_pairs (mergeRec p n l) := by
  have H : ∀ (k : Nat) (l : List Nat), l.length ≤ k → p ∉ adj_pairs (mergeRec p n l) := by
    intro k
    induction k with
    | zero =>
      intro l hl hq
      match l with
      | [] => cases hq
    | succ k ih =>
      intro l hl hq
      match l with
      | [] => cases hq
      | [a] => cases hq
      | a :: b :: r =>
        rw [mergeRec] at hq
        by_cases hp : (a, b) = p
        · rw [if_pos hp] at hq
          match hm : mergeRec p n r with
          | [] => rw [hm] at hq; cases hq
          | m0 :: M =>
            rw [hm, adj_pairs] at hq
            rcases List.mem_cons.mp hq with h1 | h1
            · exact hn1 (by rw [h1])
            · rw [← hm] at h1
              exact ih r (by simp at hl; omega) h1
        · rw [if_neg hp] at hq
          match hm : mergeRec p n (b :: r) with
          | [] => exact absurd hm (mergeRec_ne_nil p n b r)
          | m0 :: M =>
            rw [hm, adj_pairs] at hq
            rcases List.mem_cons.mp hq with h1 | h1
            · rcases mergeRec_head p n b r m0 M hm with h2 | h2
              · exact hp (by rw [h1, h2])
              · exact hn2 (by rw [h1]; exact h2)
            · rw [← hm] at h1
              exact ih (b :: r) (by simp at hl ⊢; omega) h1
  intro l
  exact H l.length l (Nat.le_refl _)

theorem train_exit {st st2 : BPETokenizer} {acc evs : List ((Nat × Nat) × Nat × List Nat)}
    (h : (some (st, acc.reverse) : Option (BPETokenizer × List ((Nat × Nat) × Nat × List Nat))) =
      some (st2, evs)) : st2 = st ∧ evs = acc.reverse := by
  injection h with h1
  injection h1 with ha hb
  exact ⟨ha.symm, hb.symm⟩

theorem train_go_counter (pick : List Nat → Nat × Nat) (se : Bool) :
    ∀ (k : Nat) (st : BPETokenizer) (l : List Nat)
      (acc : List ((Nat × Nat) × Nat × List Nat))
      (st2 : BPETokenizer) (evs : List ((Nat × Nat) × Nat × List Nat)),
      st.max_vocab_size - st.next_id ≤ k →
      train_go pick se st l acc = some (st2, evs) →
      st2.next_id + acc.length = st.next_id + evs.length ∧
      st2.max_vocab_size = st.max_vocab_size ∧
      st.next_id ≤ st2.next_id ∧
      (st.next_id ≤ st.max_vocab_size → st2.next_id ≤ st.max_vocab_size) := by
  intro k
  induction k with
  | zero =>
    intro st l acc st2 evs hk htr
    rw [train_go, dif_neg (by omega)] at htr
    obtain ⟨h1, h2⟩ := train_exit htr
    subst h1; subst h2
    exact ⟨by rw [List.length_reverse], rfl, Nat.le_refl _, fun h => h⟩
  | succ k ih =>
    intro st l acc st2 evs hk htr
    rw [train_go] at htr
    by_cases hg : st.next_id < st.max_vocab_size
    · rw [dif_pos hg] at htr
      cases hmf : most_frequent_pair pick l with
      | none =>
        simp only [hmf] at htr
        cases htr
      | some o =>
        cases o with
        | none =>
          simp only [hmf] at htr
          obtain ⟨h1, h2⟩ := train_exit htr
          subst h1; subst h2
          exact ⟨by rw [List.length_reverse], rfl, Nat.le_refl _, fun h => h⟩
        | some pc =>
          obtain ⟨p, c⟩ := pc
          simp only [hmf] at htr
          by_cases hstop : (se = true) ∧ c = 1
          · rw [if_pos hstop] at htr
            obtain ⟨h1, h2⟩ := train_exit htr
            subst h1; subst h2
            exact ⟨by rw [List.length_reverse], rfl, Nat.le_refl _, fun h => h⟩
          · rw [if_neg hstop] at htr
            have hrec := ih _ _ _ _ _
              (by show st.max_vocab_size - (st.next_id + 1) ≤ k; omega) htr
            dsimp only at hrec
            simp only [List.length_cons] at hrec
            obtain ⟨e1, e2, e3, e4⟩ := hrec
            refine ⟨by omega, by omega, by omega, by omega⟩
    · rw [dif_neg hg] at htr
      obtain ⟨h1, h2⟩ := train_exit htr
      subst h1; subst h2
      exact ⟨by rw [List.length_reverse], rfl, Nat.le_refl _, fun h => h⟩

theorem most_frequent_pair_some {pick : List Nat → Nat × Nat} {l : List Nat}
    {p : Nat × Nat} {c : Nat} (h : most_frequent_pair pick l = some (some (p, c))) :
    2 ≤ l.length ∧ p = pick l := by
  rw [most_frequent_pair] at h
  by_cases h0 : l.isEmpty
  · rw [if_pos h0] at h; cases h
  · rw [if_neg h0] at h
    by_cases h1 : l.length = 1
    · rw [if_pos h1] at h
      injection h with h2
      cases h2
    · rw [if_neg h1] at h
      injection h with h2
      injection h2 with h3
      injection h3 with h4 h5
      have hne : l ≠ [] := fun he => h0 (by rw [he]; rfl)
      have hlen : l.length ≠ 0 := fun he => hne (List.length_eq_zero.mp he)
      exact ⟨by omega, h4.symm⟩

theorem VocabInv_keylt {st : BPETokenizer} (h : VocabInv st) :
    ∀ i, (lookupM st.id_to_token i).isSome = true → i < st.next_id := by
  intro i hi
  obtain ⟨v, hv⟩ := Option.isSome_iff_exists.mp hi
  exact h.2.2.1 (i, v) (lookupM_mem hv)

theorem VocabInv_merge_step (st : BPETokenizer) (p : Nat × Nat)
    (h : VocabInv st)
    (h1s : lookupM st.id_to_special p.1 = none) (h2s : lookupM st.id_to_special p.2 = none)
    (h1t : (lookupM st.id_to_token p.1).isSome = true)
    (h2t : (lookupM st.id_to_token p.2).isSome = true) :
    VocabInv
      { st with
        pairs := mapInsert st.pairs p st.next_id
        id_to_token := mapInsert st.id_to_token st.next_id
          ((lookupM st.id_to_token p.1).getD [] ++ (lookupM st.id_to_token p.2).getD [])
        next_id := st.next_id + 1 } := by
  obtain ⟨h1, h2, h3, h4, h5, h6⟩ := h
  have keylt : ∀ i, (lookupM st.id_to_token i).isSome = true → i < st.next_id :=
    VocabInv_keylt ⟨h1, h2, h3, h4, h5, h6⟩
  have lt1 : p.1 < st.next_id := keylt _ h1t
  have lt2 : p.2 < st.next_id := keylt _ h2t
  have hnextspec : lookupM st.id_to_special st.next_id = none :=
    lookupM_eq_none fun q hq => by have := (h4 q hq).2; omega
  unfold VocabInv
  dsimp only
  refine ⟨?_, by omega, ?_, ?_, ?_, ?_⟩
  · intro b hb
    rw [lookupM_mapInsert_ne _ _ (by omega)]
    exact h1 b hb
  · intro q hq
    rcases mapInsert_mem hq with hq1 | hq1
    · have := h3 q hq1; omega
    · rw [hq1]; omega
  · intro q hq
    have := h4 q hq
    exact ⟨this.1, by omega⟩
  · intro q hq
    have := h5 q hq
    exact ⟨this.1, by omega⟩
  · intro q hq
    rcases mapInsert_mem hq with hq1 | hq1
    · obtain ⟨ha, hb, hc, hd, he, hf⟩ := h6 q hq1
      have ltq1 : q.1.1 < st.next_id := keylt _ hd
      have ltq2 : q.1.2 < st.next_id := keylt _ he
      have ltq3 : q.2 < st.next_id := keylt _ (by rw [hf]; rfl)
      rw [lookupM_mapInsert_ne _ _ (by omega), lookupM_mapInsert_ne _ _ (by omega),
        lookupM_mapInsert_ne _ _ (by omega)]
      exact ⟨ha, hb, hc, hd, he, hf⟩
    · rw [hq1]
      dsimp only
      rw [lookupM_mapInsert_ne _ _ (by omega), lookupM_mapInsert_ne _ _ (by omega),
        lookupM_mapInsert_self]
      exact ⟨h1s, h2s, hnextspec, h1t, h2t, rfl⟩

theorem train_go_inv (pick : List Nat → Nat × Nat) (se : Bool) (hpick : pickMem pick) :
    ∀ (k : Nat) (st : BPETokenizer) (l : List Nat)
      (acc : List ((Nat × Nat) × Nat × List Nat))
      (st2 : BPETokenizer) (evs : List ((Nat × Nat) × Nat × List Nat)),
      st.max_vocab_size - st.next_id ≤ k →
      VocabInv st →
      (∀ x ∈ l, x < st.next_id ∧ (lookupM st.id_to_token x).isSome = true ∧
        lookupM st.id_to_special x = none) →
      (∀ e ∈ acc, e.1 ∉ adj_pairs l ∧ e.1.1 < st.next_id ∧ e.1.2 < st.next_id ∧
        lookupM st.pairs e.1 = some e.2.1) →
      (acc.map (fun e => e.1)).Nodup →
      train_go pick se st l acc = some (st2, evs) →
      VocabInv st2 ∧ (evs.map (fun e => e.1)).Nodup ∧
      (∀ e ∈ evs, lookupM st2.pairs e.1 = some e.2.1) := by
  intro k
  induction k with
  | zero =>
    intro st l acc st2 evs hk hinv hl hacc hnd htr
    rw [train_go, dif_neg (by omega)] at htr
    obtain ⟨h1, h2⟩ := train_exit htr
    subst h1; subst h2
    refine ⟨hinv, ?_, ?_⟩
    · rw [List.map_reverse, List.nodup_reverse]; exact hnd
    · intro e he
      exact (hacc e (List.mem_reverse.mp he)).2.2.2
  | succ k ih =>
    intro st l acc st2 evs hk hinv hl hacc hnd htr
    rw [train_go] at htr
    by_cases hg : st.next_id < st.max_vocab_size
    · rw [dif_pos hg] at htr
      cases hmf : most_frequent_pair pick l with
      | none =>
        simp only [hmf] at htr
        cases htr
      | some o =>
        cases o with
        | none =>
          simp only [hmf] at htr
          obtain ⟨h1, h2⟩ := train_exit htr
          subst h1; subst h2
          refine ⟨hinv, ?_, ?_⟩
          · rw [List.map_reverse, List.nodup_reverse]; exact hnd
          · intro e he
            exact (hacc e (List.mem_reverse.mp he)).2.2.2
        | some pc =>
          obtain ⟨p, c⟩ := pc
          simp only [hmf] at htr
          by_cases hstop : (se = true) ∧ c = 1
          · rw [if_pos hstop] at htr
            obtain ⟨h1, h2⟩ := train_exit htr
            subst h1; subst h2
            refine ⟨hinv, ?_, ?_⟩
            · rw [List.map_reverse, List.nodup_reverse]; exact hnd
            · intro e he
              exact (hacc e (List.mem_reverse.mp he)).2.2.2
          · rw [if_neg hstop] at htr
            obtain ⟨hlen, hpeq⟩ := most_frequent_pair_some hmf
            have hpadj : p ∈ adj_pairs l := by rw [hpeq]; exact hpick l hlen
            have hpelem := adj_pairs_mem_left l p hpadj
            have hp1 := hl p.1 hpelem.1
            have hp2 := hl p.2 hpelem.2
            rw [getOrInsert_of_isSome _ hp1.2.1] at htr
            dsimp only at htr
            rw [getOrInsert_of_isSome _ hp2.2.1] at htr
            dsimp only at htr
            have hp1ne : p.1 ≠ st.next_id := Nat.ne_of_lt hp1.1
            have hp2ne : p.2 ≠ st.next_id := Nat.ne_of_lt hp2.1
            have hinvM := VocabInv_merge_step st p hinv hp1.2.2 hp2.2.2 hp1.2.1 hp2.2.1
            have hlM : ∀ x ∈ merge_pair l p st.next_id,
                x < st.next_id + 1 ∧
                (lookupM (mapInsert st.id_to_token st.next_id
                  ((lookupM st.id_to_token p.1).getD [] ++
                    (lookupM st.id_to_token p.2).getD [])) x).isSome = true ∧
                lookupM st.id_to_special x = none := by
              intro x hx
              rw [merge_pair_eq_rec] at hx
              rcases mergeRec_elem p st.next_id l x hx with h1 | h1
              · have hxl := hl x h1
                refine ⟨by omega, ?_, hxl.2.2⟩
                rw [lookupM_mapInsert_ne _ _ (Nat.ne_of_lt hxl.1)]
                exact hxl.2.1
              · subst h1
                refine ⟨by omega, ?_, ?_⟩
                · rw [lookupM_mapInsert_self]; rfl
                · exact lookupM_eq_none fun q hq => by
                    have := (hinv.2.2.2.1 q hq).2; omega
            have haccM : ∀ e ∈ ((p, st.next_id,
                  (lookupM st.id_to_token p.1).getD [] ++
                    (lookupM st.id_to_token p.2).getD []) :: acc),
                e.1 ∉ adj_pairs (merge_pair l p st.next_id) ∧
                e.1.1 < st.next_id + 1 ∧ e.1.2 < st.next_id + 1 ∧
                lookupM (mapInsert st.pairs p st.next_id) e.1 = some e.2.1 := by
              intro e he
              rcases List.mem_cons.mp he with he1 | he1
              · subst he1
                dsimp only
                refine ⟨?_, by omega, by omega, ?_⟩
                · rw [merge_pair_eq_rec]
                  exact mergeRec_not_adj p st.next_id hp1ne hp2ne l
                · rw [lookupM_mapInsert_self]
              · have hh := hacc e he1
                refine ⟨?_, by omega, by omega, ?_⟩
                · intro hcon
                  rw [merge_pair_eq_rec] at hcon
                  rcases adj_pairs_mergeRec p st.next_id l e.1 hcon with h1 | h1 | h1
                  · exact hh.1 h1
                  · omega
                  · omega
                · rw [lookupM_mapInsert_ne _ _ fun he2 => hh.1 (by rw [he2]; exact hpadj)]
                  exact hh.2.2.2
            have hndM : (((p, st.next_id,
                  (lookupM st.id_to_token p.1).getD [] ++
                    (lookupM st.id_to_token p.2).getD []) :: acc).map
                  (fun e => e.1)).Nodup := by
              rw [List.map_cons]
              refine List.nodup_cons.mpr ⟨?_, hnd⟩
              intro hcon
              obtain ⟨e, he, hep⟩ := List.mem_map.mp hcon
              exact (hacc e he).1 (by rw [hep]; exact hpadj)
            exact ih _ _ _ _ _
              (by show st.max_vocab_size - (st.next_id + 1) ≤ k; omega)
              hinvM hlM haccM hndM htr
    · rw [dif_neg hg] at htr
      obtain ⟨h1, h2⟩ := train_exit htr
      subst h1; subst h2
      refine ⟨hinv, ?_, ?_⟩
      · rw [List.map_reverse, List.nodup_reverse]; exact hnd
      · intro e he
        exact (hacc e (List.mem_reverse.mp he)).2.2.2

/-- Literal prefix test on byte lists. -/
def pfx : List Nat → List Nat → Bool
  | [], _ => true
  | _ :: _, [] => false
  | a :: as, b :: bs => if a = b then pfx as bs else false

theorem pfx_append : ∀ (t s : List Nat), pfx t s = true → s = t ++ s.drop t.length := by
  intro t
  induction t with
  | nil => intro s _; rfl
  | cons a t ih =>
    intro s hs
    match s with
    | [] => rw [pfx] at hs; cases hs
    | b :: s' =>
      rw [pfx] at hs
      by_cases hab : a = b
      · rw [if_pos hab] at hs
        subst hab
        show a :: s' = a :: (t ++ s'.drop t.length)
        rw [← ih s' hs]
      · rw [if_neg hab] at hs
        cases hs

theorem pfx_nil_right : ∀ t : List Nat, pfx t [] = true → t = [] := by
  intro t h
  match t with
  | [] => rfl
  | a :: t' => rw [pfx] at h; cases h

/-- The leftmost match of the special-token alternation built in `encode`: scan the
positions left to right; at each position try the alternatives in the order in which
the pattern was assembled from `special_to_id` (ECMAScript alternation is ordered);
a hit yields the unmatched prefix, the matched literal and the remaining suffix. -/
def findMatch (toks : List (List Nat)) : List Nat → Option (List Nat × List Nat × List Nat)
  | [] =>
    match toks.find? (fun t => pfx t []) with
    | some t => some ([], t, [])
    | none => none
  | c :: s =>
    match toks.find? (fun t => pfx t (c :: s)) with
    | some t => some ([], t, (c :: s).drop t.length)
    | none =>
      match findMatch toks s with
      | some pr => some (c :: pr.1, pr.2.1, pr.2.2)
      | none => none

theorem findMatch_split (toks : List (List Nat)) :
    ∀ s pr, findMatch toks s = some pr →
      s = pr.1 ++ pr.2.1 ++ pr.2.2 ∧ pr.2.1 ∈ toks := by
  intro s
  induction s with
  | nil =>
    intro pr h
    rw [findMatch] at h
    cases hf : toks.find? (fun t => pfx t []) with
    | none => rw [hf] at h; cases h
    | some t0 =>
      rw [hf] at h
      injection h with h1
      subst h1
      have hps0 := List.find?_some hf
      have hps : pfx t0 [] = true := hps0
      have ht0 : t0 = [] := pfx_nil_right t0 hps
      subst ht0
      exact ⟨rfl, List.mem_of_find?_eq_some hf⟩
  | cons c s' ih =>
    intro pr h
    rw [findMatch] at h
    cases hf : toks.find? (fun t => pfx t (c :: s')) with
    | some t0 =>
      rw [hf] at h
      injection h with h1
      subst h1
      have hps0 := List.find?_some hf
      have hps : pfx t0 (c :: s') = true := hps0
      refine ⟨?_, List.mem_of_find?_eq_some hf⟩
      rw [List.nil_append]
      exact pfx_append t0 (c :: s') hps
    | none =>
      rw [hf] at h
      cases hm : findMatch toks s' with
      | none => rw [hm] at h; cases h
      | some pr0 =>
        rw [hm] at h
        injection h with h1
        subst h1
        have hr := ih pr0 hm
        refine ⟨?_, hr.2⟩
        rw [List.cons_append, List.cons_append, hr.1]

theorem findMatch_none (toks : List (List Nat)) :
    ∀ s, (∀ t ∈ toks, ∀ i, ¬ pfx t (s.drop i) = true) → findMatch toks s = none := by
  intro s
  induction s with
  | nil =>
    intro h
    rw [findMatch]
    cases hf : toks.find? (fun t => pfx t []) with
    | none => rfl
    | some t0 =>
      exact absurd (List.find?_some hf) (h t0 (List.mem_of_find?_eq_some hf) 0)
  | cons c s' ih =>
    intro h
    rw [findMatch]
    cases hf : toks.find? (fun t => pfx t (c :: s')) with
    | some t0 =>
      exact absurd (List.find?_some hf) (h t0 (List.mem_of_find?_eq_some hf) 0)
    | none =>
      have hrec : findMatch toks s' = none := ih fun t ht i => h t ht (i + 1)
      rw [hrec]

/-- Models the token iteration of `encode` over the submatch list `{-1, 0}`: for every
match, the unmatched span before it and the matched literal are both produced (the
span may be empty); after the last match the remaining suffix is produced only when
it is non-empty.  A registered literal that is empty falls outside the modelled
fragment (`none`): the pattern then matches the empty string everywhere and the
empty-match advancement rule of the regex iterator takes over. -/
def splitSpecial (toks : List (List Nat)) (s : List Nat) : Option (List (List Nat)) :=
  match hm : findMatch toks s with
  | none => some (if s.isEmpty then [] else [s])
  | some pr =>
    if hpr : pr.2.1.isEmpty then none
    else
      match splitSpecial toks pr.2.2 with
      | none => none
      | some ps => some (pr.1 :: pr.2.1 :: ps)
termination_by s.length
decreasing_by
  have hsplit := (findMatch_split toks s pr hm).1
  have h2 : pr.2.1 ≠ [] := fun he => hpr (by rw [he]; rfl)
  have h3 : 0 < pr.2.1.length := List.length_pos.mpr h2
  have h4 : s.length = (pr.1.length + pr.2.1.length) + pr.2.2.length := by
    rw [hsplit, List.length_append, List.length_append]
  omega

/-- Models the loop over the produced tokens in `encode`: a piece present in
`special_to_id` contributes its id (read through the index operator, under the `find`
guard); any other piece runs through `_encode_non_special` and its ids are appended. -/
def encode_pieces (sp : List (List Nat × Nat)) (ps0 : List ((Nat × Nat) × Nat)) :
    List (List Nat) →
      Option (List Nat) × List (List Nat × Nat) × List ((Nat × Nat) × Nat)
  | [] => (some [], sp, ps0)
  | s :: rest =>
    if (lookupM sp s).isSome then
      match encode_pieces (getOrInsert sp s 0).2 ps0 rest with
      | (some r, sp2, p2) => (some ((getOrInsert sp s 0).1 :: r), sp2, p2)
      | (none, sp2, p2) => (none, sp2, p2)
    else
      match _encode_non_special ps0 s with
      | (some ids, p1) =>
        match encode_pieces sp p1 rest with
        | (some r, sp2, p2) => (some (ids ++ r), sp2, p2)
        | (none, sp2, p2) => (none, sp2, p2)
      | (none, p1) => (none, sp, p1)

/-- Models `encode`: with no special tokens registered the whole input goes through
`_encode_non_special`; otherwise the input is split around the special-token pattern
and the pieces are processed in order.  The second component is the state of the two
tables encode touches, which the frame theorem shows unchanged. -/
def encode (st : BPETokenizer) (input : List Nat) : Option (List Nat) × BPETokenizer :=
  if st.special_to_id.isEmpty then
    match _encode_non_special st.pairs input with
    | (r, p1) => (r, { st with pairs := p1 })
  else
    match splitSpecial (st.special_to_id.map fun q => q.1) input with
    | none => (none, st)
    | some pieces =>
      match encode_pieces st.special_to_id st.pairs pieces with
      | (r, sp2, p2) => (r, { st with pairs := p2, special_to_id := sp2 })

theorem _encode_non_special_pairs (ps : List ((Nat × Nat) × Nat)) (input : List Nat) :
    (_encode_non_special ps input).2 = ps := by
  rw [_encode_non_special]
  by_cases he : (string_to_byte input).isEmpty
  · rw [if_pos he]
  · rw [if_neg he]
    exact encode_loop_pairs ps (string_to_byte input)

theorem encode_pieces_state (sp : List (List Nat × Nat)) (ps0 : List ((Nat × Nat) × Nat)) :
    ∀ l, (encode_pieces sp ps0 l).2 = (sp, ps0) := by
  intro l
  induction l generalizing sp ps0 with
  | nil => rfl
  | cons s rest ih =>
    rw [encode_pieces]
    by_cases hs : (lookupM sp s).isSome
    · rw [if_pos hs, getOrInsert_of_isSome _ hs]
      have hrec := ih sp ps0
      cases hr : encode_pieces sp ps0 rest with
      | mk a b =>
        rw [hr] at hrec
        cases a with
        | none => exact hrec
        | some r => exact hrec
    · rw [if_neg hs]
      cases hn : _encode_non_special ps0 s with
      | mk a p1 =>
        have hps : p1 = ps0 := by
          have := _encode_non_special_pairs ps0 s
          rw [hn] at this
          exact this
        subst hps
        cases a with
        | none => rfl
        | some ids =>
          dsimp only
          have hrec := ih sp p1
          cases hr : encode_pieces sp p1 rest with
          | mk a2 b2 =>
            rw [hr] at hrec
            cases a2 with
            | none => exact hrec
            | some r => exact hrec

theorem splitSpecial_of_none (toks : List (List Nat)) (s : List Nat)
    (h : findMatch toks s = none) :
    splitSpecial toks s = some (if s.isEmpty then [] else [s]) := by
  unfold splitSpecial
  split
  · rfl
  · next pr heq =>
    rw [h] at heq
    cases heq

theorem splitSpecial_some_none (toks : List (List Nat)) (s : List Nat)
    (pr : List Nat × List Nat × List Nat) (h : findMatch toks s = some pr)
    (hne : ¬ pr.2.1.isEmpty = true) (h2 : splitSpecial toks pr.2.2 = none) :
    splitSpecial toks s = none := by
  unfold splitSpecial
  split
  · next heq =>
    rw [h] at heq
    cases heq
  · next pr0 heq =>
    rw [h] at heq
    injection heq with heq1
    subst heq1
    rw [dif_neg hne]
    simp only [h2]

theorem splitSpecial_some_some (toks : List (List Nat)) (s : List Nat)
    (pr : List Nat × List Nat × List Nat) (ps2 : List (List Nat))
    (h : findMatch toks s = some pr)
    (hne : ¬ pr.2.1.isEmpty = true) (h2 : splitSpecial toks pr.2.2 = some ps2) :
    splitSpecial toks s = some (pr.1 :: pr.2.1 :: ps2) := by
  unfold splitSpecial
  split
  · next heq =>
    rw [h] at heq
    cases heq
  · next pr0 heq =>
    rw [h] at heq
    injection heq with heq1
    subst heq1
    rw [dif_neg hne]
    simp only [h2]

theorem splitSpecial_of_empty_tok (toks : List (List Nat)) (s : List Nat)
    (pr : List Nat × List Nat × List Nat) (h : findMatch toks s = some pr)
    (he : pr.2.1.isEmpty = true) : splitSpecial toks s = none := by
  unfold splitSpecial
  split
  · next heq =>
    rw [h] at heq
    cases heq
  · next pr0 heq =>
    rw [h] at heq
    injection heq with heq1
    subst heq1
    rw [dif_pos he]

theorem splitSpecial_join (toks : List (List Nat)) :
    ∀ s ps, splitSpecial toks s = some ps → ps.flatten = s := by
  have H : ∀ (k : Nat) (s : List Nat), s.length ≤ k →
      ∀ ps, splitSpecial toks s = some ps → ps.flatten = s := by
    intro k
    induction k with
    | zero =>
      intro s hs ps h
      match s, hs with
      | [], _ =>
        cases hm : findMatch toks [] with
        | none =>
          rw [splitSpecial_of_none toks [] hm] at h
          injection h with h1
          subst h1
          rfl
        | some pr =>
          have hsp := findMatch_split toks [] pr hm
          have hemp : pr.2.1 = [] := by
            have hlen := congrArg List.length hsp.1
            simp only [List.length_append, List.length_nil] at hlen
            exact List.length_eq_zero.mp (by omega)
          rw [splitSpecial_of_empty_tok toks [] pr hm (by rw [hemp]; rfl)] at h
          cases h
    | succ k ih =>
      intro s hs ps h
      cases hm : findMatch toks s with
      | none =>
        rw [splitSpecial_of_none toks s hm] at h
        injection h with h1
        subst h1
        by_cases he : s.isEmpty
        · rw [if_pos he]
          have hnil : s = [] := by
            cases s with
            | nil => rfl
            | cons a t => cases he
          rw [hnil]
          rfl
        · rw [if_neg he]
          show s ++ [].flatten = s
          simp
      | some pr =>
        have hsp := findMatch_split toks s pr hm
        by_cases hne : pr.2.1.isEmpty
        · rw [splitSpecial_of_empty_tok toks s pr hm hne] at h
          cases h
        · cases hrec : splitSpecial toks pr.2.2 with
          | none =>
            rw [splitSpecial_some_none toks s pr hm hne hrec] at h
            cases h
          | some ps2 =>
            rw [splitSpecial_some_some toks s pr ps2 hm hne hrec] at h
            injection h with h1
            subst h1
            have hlen : pr.2.2.length ≤ k := by
              have h4 : s.length = (pr.1.length + pr.2.1.length) + pr.2.2.length := by
                rw [hsp.1, List.length_append, List.length_append]
              have h5 : pr.2.1 ≠ [] := fun he2 => by rw [he2] at hne; exact hne rfl
              have h6 : 0 < pr.2.1.length := List.length_pos.mpr h5
              omega
            have hj := ih pr.2.2 hlen ps2 hrec
            show pr.1 ++ (pr.2.1 ++ ps2.flatten) = s
            rw [hj, hsp.1, List.append_assoc]
  intro s
  exact H s.length s (Nat.le_refl _)

theorem encode_state_eq (st : BPETokenizer) (input : List Nat) :
    (encode st input).2 = st := by
  rw [encode]
  by_cases hsp : st.special_to_id.isEmpty
  · rw [if_pos hsp]
    cases hn : _encode_non_special st.pairs input with
    | mk a p1 =>
      have hp : p1 = st.pairs := by
        have := _encode_non_special_pairs st.pairs input
        rw [hn] at this
        exact this
      subst hp
      rfl
  · rw [if_neg hsp]
    cases hsplit : splitSpecial (st.special_to_id.map fun q => q.1) input with
    | none => rfl
    | some pieces =>
      cases hr : encode_pieces st.special_to_id st.pairs pieces with
      | mk a b2 =>
        obtain ⟨sp2, p2⟩ := b2
        have hst := encode_pieces_state st.special_to_id st.pairs pieces
        rw [hr] at hst
        have hb1 : sp2 = st.special_to_id := congrArg Prod.fst hst
        have hb2 : p2 = st.pairs := congrArg Prod.snd hst
        simp only [hr]
        show ({ st with pairs := p2, special_to_id := sp2 } : BPETokenizer) = st
        rw [hb1, hb2]

theorem span_roundtrip {st : BPETokenizer} (h : VocabInv st) (input : List Nat)
    (hbytes : ∀ b ∈ input, b < 256) (hne : input ≠ []) :
    (_encode_non_special st.pairs input).1 = some (encode_loop st.pairs input).1 ∧
    decode st (encode_loop st.pairs input).1 = input := by
  constructor
  · rw [_encode_non_special]
    simp only [string_to_byte]
    rw [if_neg fun hc => hne (List.isEmpty_iff.mp hc)]
  · rw [encode_loop_decode st (VocabInv_pairs_decode h)]
    exact decode_self st input fun b hb => VocabInv_decode_one_byte h (hbytes b hb)

theorem encode_pieces_decode {st : BPETokenizer} (h : VocabInv st) :
    ∀ (l : List (List Nat)) (out : List Nat),
      (∀ s ∈ l, ∀ b ∈ s, b < 256) →
      (encode_pieces st.special_to_id st.pairs l).1 = some out →
      decode st out = l.flatten := by
  intro l
  induction l with
  | nil =>
    intro out _ hout
    injection hout with h1
    subst h1
    rfl
  | cons s rest ih =>
    intro out hb hout
    rw [encode_pieces] at hout
    by_cases hs : (lookupM st.special_to_id s).isSome
    · rw [if_pos hs, getOrInsert_of_isSome _ hs] at hout
      dsimp only at hout
      cases hr : encode_pieces st.special_to_id st.pairs rest with
      | mk a b2 =>
        rw [hr] at hout
        cases a with
        | none => cases hout
        | some r =>
          dsimp only at hout
          injection hout with h1
          subst h1
          obtain ⟨i, hi⟩ := Option.isSome_iff_exists.mp hs
          rw [hi]
          show decode st ((some i).getD 0 :: r) = (s :: rest).flatten
          show decode_one st i ++ decode st r = s ++ rest.flatten
          have hspec := (h.2.2.2.2.1 (s, i) (lookupM_mem hi)).1
          have hdec1 : decode_one st i = s := by
            rw [decode_one]
            simp only [hspec]
          rw [hdec1, ih r (fun q hq => hb q (List.mem_cons_of_mem _ hq)) (by rw [hr])]
    · rw [if_neg hs] at hout
      cases hn : _encode_non_special st.pairs s with
      | mk a p1 =>
        rw [hn] at hout
        have hp : p1 = st.pairs := by
          have := _encode_non_special_pairs st.pairs s
          rw [hn] at this
          exact this
        subst hp
        cases a with
        | none => cases hout
        | some ids =>
          dsimp only at hout
          cases hr : encode_pieces st.special_to_id st.pairs rest with
          | mk a2 b2 =>
            rw [hr] at hout
            cases a2 with
            | none => cases hout
            | some r =>
              dsimp only at hout
              injection hout with h1
              subst h1
              have hsne : s ≠ [] := by
                intro he
                subst he
                rw [show _encode_non_special st.pairs [] = (none, st.pairs) from rfl] at hn
                injection hn with h2 h3
                cases h2
              have hids : ids = (encode_loop st.pairs s).1 := by
                rw [_encode_non_special] at hn
                simp only [string_to_byte] at hn
                rw [if_neg fun hc => hsne (List.isEmpty_iff.mp hc)] at hn
                injection hn with h2 h3
                injection h2 with h4
                exact h4.symm
              show decode st (ids ++ r) = (s :: rest).flatten
              rw [decode_append, hids,
                (span_roundtrip h s (hb s (List.mem_cons_self _ _)) hsne).2,
                ih r (fun q hq => hb q (List.mem_cons_of_mem _ hq)) (by rw [hr])]
              rfl

theorem _encode_non_special_some {ps : List ((Nat × Nat) × Nat)} {input out : List Nat}
    (h : (_encode_non_special ps input).1 = some out) :
    input ≠ [] ∧ out = (encode_loop ps input).1 := by
  rw [_encode_non_special] at h
  simp only [string_to_byte] at h
  by_cases he : input.isEmpty
  · rw [if_pos he] at h
    cases h
  · rw [if_neg he] at h
    refine ⟨fun hc => he (by rw [hc]; rfl), ?_⟩
    injection h with h1
    exact h1.symm

/-- Special tokens whose escaped pattern matches them literally: the escaping step of
`encode` covers every ECMAScript metacharacter except the backslash, so literal
matching is faithful exactly when no registered token contains byte 92. -/
def RegexLit (st : BPETokenizer) : Prop :=
  ∀ q ∈ st.special_to_id, (92 : Nat) ∉ q.1

theorem encode_no_special_sub (st : BPETokenizer) (text : List Nat)
    (hinv : VocabInv st)
    (hbytes : ∀ b ∈ text, b < 256)
    (hne : text ≠ [])
    (hnosub : ∀ q ∈ st.special_to_id, ¬ ∃ pre post, text = pre ++ q.1 ++ post) :
    (encode st text).1 = some (encode_loop st.pairs text).1 ∧
    decode st (encode_loop st.pairs text).1 = text := by
  have hsr := span_roundtrip hinv text hbytes hne
  refine ⟨?_, hsr.2⟩
  rw [encode]
  by_cases hsp : st.special_to_id.isEmpty
  · rw [if_pos hsp]
    cases hn : _encode_non_special st.pairs text with
    | mk a p1 =>
      have h1 := hsr.1
      rw [hn] at h1
      simp only [hn]
      exact h1
  · rw [if_neg hsp]
    have hfm : findMatch (st.special_to_id.map fun q => q.1) text = none := by
      apply findMatch_none
      intro t ht i hp
      obtain ⟨q, hq, hqt⟩ := List.mem_map.mp ht
      have hocc : ∃ pre post, text = pre ++ q.1 ++ post := by
        refine ⟨text.take i, (text.drop i).drop q.1.length, ?_⟩
        have hd := pfx_append q.1 (text.drop i) (by rw [hqt]; exact hp)
        calc text = text.take i ++ text.drop i := (List.take_append_drop i text).symm
        _ = text.take i ++ (q.1 ++ (text.drop i).drop q.1.length) := by rw [← hd]
        _ = text.take i ++ q.1 ++ (text.drop i).drop q.1.length := by
            rw [List.append_assoc]
      exact hnosub q hq hocc
    rw [splitSpecial_of_none _ _ hfm]
    rw [if_neg fun hc => hne (List.isEmpty_iff.mp hc)]
    dsimp only
    rw [encode_pieces]
    have hlk : ¬ (lookupM st.special_to_id text).isSome = true := by
      intro hsome
      obtain ⟨i, hi⟩ := Option.isSome_iff_exists.mp hsome
      exact hnosub (text, i) (lookupM_mem hi) ⟨[], [], by simp⟩
    rw [if_neg hlk]
    cases hn : _encode_non_special st.pairs text with
    | mk a p1 =>
      have h1 := hsr.1
      rw [hn] at h1
      have ha : a = some (encode_loop st.pairs text).1 := h1
      subst ha
      simp only [encode_pieces]
      rw [List.append_nil]

theorem encode_success_round_trip (st : BPETokenizer) (text out : List Nat)
    (hinv : VocabInv st) (hbytes : ∀ b ∈ text, b < 256)
    (hout : (encode st text).1 = some out) : decode st out = text := by
  rw [encode] at hout
  by_cases hsp : st.special_to_id.isEmpty
  · rw [if_pos hsp] at hout
    cases hn : _encode_non_special st.pairs text with
    | mk a p1 =>
      rw [hn] at hout
      have ha : a = some out := hout
      have hsome : (_encode_non_special st.pairs text).1 = some out := by
        rw [hn]; exact ha
      obtain ⟨hne, hid⟩ := _encode_non_special_some hsome
      subst hid
      exact (span_roundtrip hinv text hbytes hne).2
  · rw [if_neg hsp] at hout
    cases hsplit : splitSpecial (st.special_to_id.map fun q => q.1) text with
    | none =>
      rw [hsplit] at hout
      cases hout
    | some pieces =>
      rw [hsplit] at hout
      dsimp only at hout
      cases hr : encode_pieces st.special_to_id st.pairs pieces with
      | mk a b2 =>
        obtain ⟨sp2, p2⟩ := b2
        rw [hr] at hout
        have ha : a = some out := hout
        have hjoin := splitSpecial_join _ text pieces hsplit
        have hpb : ∀ s ∈ pieces, ∀ b ∈ s, b < 256 := by
          intro s hsm b hbm
          apply hbytes
          rw [← hjoin]
          exact List.mem_flatten.mpr ⟨s, hsm, hbm⟩
        have hdec := encode_pieces_decode hinv pieces out hpb (by rw [hr]; exact ha)
        rw [hdec, hjoin]

theorem train_VocabInv {st : BPETokenizer} {input : List Nat}
    {pick : List Nat → Nat × Nat} {se : Bool} {st2 : BPETokenizer}
    {evs : List ((Nat × Nat) × Nat × List Nat)}
    (hpick : pickMem pick) (hinv : VocabInv st) (hbytes : ∀ b ∈ input, b < 256)
    (h : train st input pick se = some (st2, evs)) : VocabInv st2 := by
  rw [train] at h
  refine (train_go_inv pick se hpick (st.max_vocab_size - st.next_id) st
    (string_to_byte input) [] st2 evs (Nat.le_refl _) hinv ?_
    (fun e he => by cases he) (by simp) h).1
  intro x hx
  have hb := hbytes x hx
  obtain ⟨h1, h2, h3, h4, h5, h6⟩ := hinv
  refine ⟨by omega, by rw [h1 x hb]; rfl, ?_⟩
  exact lookupM_eq_none fun q hq => by have := (h4 q hq).1; omega

/-- The state after training the two-byte corpus `aa` from a fresh tokenizer with
bound 300: one merge, rule `(97, 97) -> 256`. -/
def demoB1 : BPETokenizer :=
  { max_vocab_size := 300
    pairs := [((97, 97), 256)]
    id_to_token := mapInsert byteTable 256 [97, 97]
    next_id := 257
    special_to_id := []
    id_to_special := [] }

/-- The state after running `train` on the corpus `aa` a second time from `demoB1`:
the key `(97, 97)` is selected again and its mapping overwritten with 257. -/
def demoB2 : BPETokenizer :=
  { max_vocab_size := 300
    pairs := [((97, 97), 257)]
    id_to_token := mapInsert (mapInsert byteTable 256 [97, 97]) 257 [97, 97]
    next_id := 258
    special_to_id := []
    id_to_special := [] }

set_option maxRecDepth 16384

theorem train_demoB1_eq :
    train (init0 300) [97, 97] canonicalPick false =
      some (demoB1, [((97, 97), 256, [97, 97])]) := by
  rw [train, train_go, dif_pos (by decide)]
  have hmf : most_frequent_pair canonicalPick (string_to_byte [97, 97]) =
      some (some ((97, 97), 1)) := by decide
  simp only [hmf]
  rw [if_neg (by decide)]
  rw [merge_pair_eq_rec]
  rw [train_go, dif_pos (by decide)]
  have hmf2 : most_frequent_pair canonicalPick
      (mergeRec (97, 97) (init0 300).next_id (string_to_byte [97, 97])) = some none := by
    decide
  simp only [hmf2]
  decide

theorem train_demoB2_eq :
    train demoB1 [97, 97] canonicalPick false =
      some (demoB2, [((97, 97), 257, [97, 97])]) := by
  rw [train, train_go, dif_pos (by decide)]
  have hmf : most_frequent_pair canonicalPick (string_to_byte [97, 97]) =
      some (some ((97, 97), 1)) := by decide
  simp only [hmf]
  rw [if_neg (by decide)]
  rw [merge_pair_eq_rec]
  rw [train_go, dif_pos (by decide)]
  have hmf2 : most_frequent_pair canonicalPick
      (mergeRec (97, 97) demoB1.next_id (string_to_byte [97, 97])) = some none := by
    decide
  simp only [hmf2]
  decide

/-- A fresh tokenizer with bound 1000 and the single-byte special token `#`
(byte 35, registered with id 256); used for concrete encode runs. -/
def demoSp : BPETokenizer := register_special_token (init0 1000) [35]

theorem demoSp_split_cex :
    splitSpecial (demoSp.special_to_id.map fun q => q.1) [35, 97] =
      some [[], [35], [97]] := by
  have h1 : findMatch (demoSp.special_to_id.map fun q => q.1) [35, 97] =
      some ([], [35], [97]) := by decide
  have h2 : findMatch (demoSp.special_to_id.map fun q => q.1) [97] = none := by decide
  have h3 : splitSpecial (demoSp.special_to_id.map fun q => q.1) [97] = some [[97]] := by
    rw [splitSpecial_of_none _ _ h2]
    decide
  exact splitSpecial_some_some _ _ ([], [35], [97]) [[97]] h1 (by decide) h3

theorem demoSp_split_wit :
    splitSpecial (demoSp.special_to_id.map fun q => q.1) [97, 35] =
      some [[97], [35]] := by
  have h1 : findMatch (demoSp.special_to_id.map fun q => q.1) [97, 35] =
      some ([97], [35], []) := by decide
  have h2 : findMatch (demoSp.special_to_id.map fun q => q.1) [] = none := by decide
  have h3 : splitSpecial (demoSp.special_to_id.map fun q => q.1) [] = some [] := by
    rw [splitSpecial_of_none _ _ h2]
    decide
  exact splitSpecial_some_some _ _ ([97], [35], []) [] h1 (by decide) h3

theorem demoSp_loop_eq : encode_loop demoSp.pairs [97] = ([97], demoSp.pairs) := by
  rw [encode_loop, dif_neg (by decide)]
  decide

theorem demoSp_encode_wit : (encode demoSp [97, 35]).1 = some [97, 256] := by
  rw [encode, if_neg (by decide), demoSp_split_wit]
  dsimp only
  have henc : _encode_non_special demoSp.pairs [97] = (some [97], demoSp.pairs) := by
    rw [_encode_non_special]
    simp only [string_to_byte]
    rw [if_neg (by decide), demoSp_loop_eq]
  have hep : encode_pieces demoSp.special_to_id demoSp.pairs [[97], [35]] =
      (some [97, 256], demoSp.special_to_id, demoSp.pairs) := by
    rw [encode_pieces, if_neg (by decide), henc]
    decide
  rw [hep]

/-- C1, counterexample to the claim as stated: encoding the empty text on a fresh
tokenizer (no special tokens registered) does not round-trip; `_encode_non_special`
runs its for loop with the wrapped bound `size() - 1 = 2 ^ 64 - 1` and reads
`indices[0]` out of bounds, modelled as `none`, so no decoded text exists. -/
theorem C1_empty_text_encode_fails : (encode (init0 1000) []).1 = none := rfl

/-- C1 (amended): for every non-empty text of bytes that contains no substring equal
to a registered special token, and every vocabulary state satisfying the reachable
state invariant (with special tokens matched literally, i.e. free of the unescaped
backslash byte), encode succeeds and decode of its result is the original text. -/
theorem C1_round_trip (st : BPETokenizer) (text : List Nat)
    (hinv : VocabInv st) (hlit : RegexLit st)
    (hbytes : ∀ b ∈ text, b < 256) (hne : text ≠ [])
    (hnosub : ∀ q ∈ st.special_to_id, ¬ ∃ pre post, text = pre ++ q.1 ++ post) :
    ∃ out, (encode st text).1 = some out ∧ decode st out = text := by
  obtain ⟨h1, h2⟩ := encode_no_special_sub st text hinv hbytes hne hnosub
  exact ⟨(encode_loop st.pairs text).1, h1, h2⟩

/-- C1, witness: the round trip carried out on the byte text `a` with a fresh
tokenizer. -/
theorem C1_round_trip_witness :
    ∃ out, (encode (init0 1000) [97]).1 = some out ∧ decode (init0 1000) out = [97] :=
  C1_round_trip (init0 1000) [97] (VocabInv_init0 1000) (fun q hq => by cases hq)
    (by decide) (by decide) (fun q hq => by cases hq)

/-- C2, counterexample to the claim as stated: decoding the unknown ID 300 on a fresh
tokenizer returns the empty string instead of failing with an UnknownTokenError; the
source reads `id_to_token[id]` through the index operator, which silently yields (and
inserts) a default empty string. -/
theorem C2_unknown_id_silent : decode (init0 1000) [300] = [] := rfl

/-- C2 (amended): an ID absent from both the special table and the token table is
silently skipped by decode: it contributes the empty byte string and the remaining
ids decode as if it were not there; no error is reported and no crash occurs. -/
theorem C2_unknown_id_skipped (st : BPETokenizer) (i : Nat) (ids : List Nat)
    (h1 : lookupM st.id_to_special i = none) (h2 : lookupM st.id_to_token i = none) :
    decode st (i :: ids) = decode st ids := by
  rw [decode, decode_one]
  simp only [h1, h2, Option.getD_none, List.nil_append]

/-- C2, witness: the unknown ID 300 before the byte 97 decodes as the byte 97 alone. -/
theorem C2_unknown_id_skipped_witness :
    decode (init0 1000) (300 :: [97]) = decode (init0 1000) [97] :=
  C2_unknown_id_skipped (init0 1000) 300 [97] rfl rfl

/-- C3: the claim is what the code intends but the code crashes instead.  On the
empty corpus, `train` calls `most_frequent_pair` on an empty index vector; its
counting loop bound `indices.size() - 1` wraps around to `2 ^ 64 - 1` and
`indices[0]` is read out of bounds (undefined behaviour, modelled as `none`), instead
of performing zero merges and leaving the vocabulary size unchanged. -/
theorem C3_train_empty_corpus_oob :
    train (init0 1000) [] canonicalPick false = none := by
  rw [train, train_go, dif_pos (by decide)]
  rfl

/-- C4, counterexample to the claim as stated: with the special token `#` registered,
encoding the text `#a` (which begins with a special-token literal) fails: the token
iterator yields an empty unmatched span before the match, and `_encode_non_special`
on that empty span performs the wrapped-bound out-of-bounds read. -/
theorem C4_leading_special_fails : (encode demoSp [35, 97]).1 = none := by
  rw [encode, if_neg (by decide), demoSp_split_cex]
  dsimp only
  rw [encode_pieces, if_neg (by decide)]
  decide

/-- C4 (amended): for every byte text on which encode completes (the split produced
no empty plain span, which excludes texts beginning with a special-token literal and
texts with two adjacent literals), decoding the encoded sequence gives back the
original text, for every vocabulary state satisfying the reachable-state invariant
with literally matched (backslash-free) special tokens. -/
theorem C4_special_round_trip (st : BPETokenizer) (text out : List Nat)
    (hinv : VocabInv st) (hlit : RegexLit st)
    (hbytes : ∀ b ∈ text, b < 256)
    (h : (encode st text).1 = some out) : decode st out = text :=
  encode_success_round_trip st text out hinv hbytes h

/-- C4, witness: the text `a#`, which ends with the registered special literal `#`,
encodes to `[97, 256]` and decodes back to `a#`. -/
theorem C4_special_round_trip_witness : decode demoSp [97, 256] = [97, 35] :=
  C4_special_round_trip demoSp [97, 35] [97, 256]
    (VocabInv_register (init0 1000) [35] (VocabInv_init0 1000))
    (fun q hq => by
      have : q = ([35], 256) := by
        rcases List.mem_cons.mp hq with h | h
        · exact h
        · cases h
      rw [this]
      decide)
    (by decide) demoSp_encode_wit

/-- C5, counterexample to the claim as stated: on the empty span the pass loop of
`_encode_non_special` is not run to a fixpoint; the for-loop bound
`indices.size() - 1` wraps around and `indices[0]` is read out of bounds
(modelled as `none`). -/
theorem C5_empty_span_fails : (_encode_non_special (init0 1000).pairs []).1 = none := rfl

/-- C5 (amended): for every non-empty non-special span and every merge table,
`_encode_non_special` terminates with a sequence in which no adjacent pair of ids is
a key of the merge table: the repeated left-to-right passes stop exactly at a
fixpoint of the pair-replacement step. -/
theorem C5_fixpoint (ps : List ((Nat × Nat) × Nat)) (input : List Nat)
    (hne : input ≠ []) :
    ∃ r, (_encode_non_special ps input).1 = some r ∧
      ∀ q ∈ adj_pairs r, lookupM ps q = none := by
  refine ⟨(encode_loop ps input).1, ?_, encode_loop_fixpoint ps input⟩
  rw [_encode_non_special]
  simp only [string_to_byte]
  rw [if_neg fun hc => hne (List.isEmpty_iff.mp hc)]

/-- C5, witness: the fixpoint property exercised on the one-byte span `a` with an
empty merge table. -/
theorem C5_fixpoint_witness :
    ∃ r, (_encode_non_special (init0 1000).pairs [97]).1 = some r ∧
      ∀ q ∈ adj_pairs r, lookupM (init0 1000).pairs q = none :=
  C5_fixpoint (init0 1000).pairs [97] (by decide)

/-- C6: the training-step rewrite of `merge_pair` is the single non-overlapping
left-to-right pass the claim describes: on an adjacent occurrence of the selected
pair it emits the new ID and advances two positions, otherwise it emits the current
ID and advances one; in particular a run of three identical symbols `x x x` with
selected pair `(x, x)` produces one merged ID and one leftover `x`. -/
theorem C6_merge_pair_scan :
    (∀ (p : Nat × Nat) (n : Nat), merge_pair [] p n = []) ∧
    (∀ (x n : Nat) (p : Nat × Nat), merge_pair [x] p n = [x]) ∧
    (∀ (x y n : Nat) (r : List Nat) (p : Nat × Nat),
      merge_pair (x :: y :: r) p n =
        if (x, y) = p then n :: merge_pair r p n else x :: merge_pair (y :: r) p n) ∧
    (∀ x n : Nat, merge_pair [x, x, x] (x, x) n = [n, x]) := by
  refine ⟨merge_pair_nil, fun x n p => merge_pair_single x p n,
    fun x y n r p => merge_pair_cons x y r p n, ?_⟩
  intro x n
  rw [merge_pair_cons, if_pos rfl, merge_pair_single]

/-- C7, counterexample to the claim as stated: special-token registration is not
bounded by `max_vocab_size`, so a state whose vocabulary size already exceeds the
bound is reachable (bound 257, two specials registered, size 258); `train` returns
with the size still above the bound, contradicting `vocabSize() ≤ maxVocabSize`. -/
theorem C7_specials_exceed_max :
    train (register_special_token (register_special_token (init0 257) [35]) [36])
        [97, 97] canonicalPick false =
      some (register_special_token (register_special_token (init0 257) [35]) [36], []) ∧
    (register_special_token (register_special_token (init0 257) [35]) [36]).max_vocab_size
      = 257 ∧
    257 < vocab_size
      (register_special_token (register_special_token (init0 257) [35]) [36]) := by
  refine ⟨?_, by decide, by decide⟩
  rw [train, train_go, dif_neg (by decide)]
  rfl

/-- C7 (amended): whenever `train` returns, the vocabulary size afterwards equals the
size before plus the number of accepted merges (so each accepted merge adds exactly
one and the size never decreases), and provided the size before the call was within
`max_vocab_size`, the size afterwards still is. -/
theorem C7_vocab_growth (st : BPETokenizer) (input : List Nat)
    (pick : List Nat → Nat × Nat) (se : Bool) (st2 : BPETokenizer)
    (evs : List ((Nat × Nat) × Nat × List Nat))
    (h : train st input pick se = some (st2, evs)) :
    vocab_size st2 = vocab_size st + evs.length ∧
    vocab_size st ≤ vocab_size st2 ∧
    (vocab_size st ≤ st.max_vocab_size → vocab_size st2 ≤ st.max_vocab_size) := by
  rw [train] at h
  have hc := train_go_counter pick se (st.max_vocab_size - st.next_id) st
    (string_to_byte input) [] st2 evs (Nat.le_refl _) h
  simp only [List.length_nil] at hc
  obtain ⟨e1, e2, e3, e4⟩ := hc
  simp only [vocab_size]
  exact ⟨by omega, e3, e4⟩

/-- C7, witness: training `aa` from a fresh tokenizer with bound 300 accepts one
merge and grows the vocabulary from 256 to 257, within the bound. -/
theorem C7_vocab_growth_witness :
    vocab_size demoB1 = vocab_size (init0 300) + [((97, 97), 256, [97, 97])].length ∧
    vocab_size (init0 300) ≤ vocab_size demoB1 ∧
    (vocab_size (init0 300) ≤ (init0 300).max_vocab_size →
      vocab_size demoB1 ≤ (init0 300).max_vocab_size) :=
  C7_vocab_growth (init0 300) [97, 97] canonicalPick false demoB1
    [((97, 97), 256, [97, 97])] train_demoB1_eq

/-- C8, counterexample to the claim as stated: across repeated `train` calls a
recorded key is selected again and overwritten.  Training `aa` twice from a fresh
tokenizer first records `(97, 97) -> 256`; the second call selects `(97, 97)` again
and the assignment `pairs[pair] = next_id` overwrites the mapping with 257, so two
distinct new IDs have been recorded for the same key. -/
theorem C8_repeated_train_overwrites :
    train (init0 300) [97, 97] canonicalPick false =
      some (demoB1, [((97, 97), 256, [97, 97])]) ∧
    train demoB1 [97, 97] canonicalPick false =
      some (demoB2, [((97, 97), 257, [97, 97])]) ∧
    lookupM demoB1.pairs (97, 97) = some 256 ∧
    lookupM demoB2.pairs (97, 97) = some 257 :=
  ⟨train_demoB1_eq, train_demoB2_eq, by decide, by decide⟩

/-- C8 (amended): within a single `train` call from a state satisfying the
reachable-state invariant, and for any pair selection that `max_element` can make, no
pair is selected twice (the recorded keys of the call are pairwise distinct) and at
the end of the call each rule recorded during the call still maps its key to the ID
minted for it; only a later `train` call can overwrite a recorded mapping. -/
theorem C8_single_call_append_only (st : BPETokenizer) (input : List Nat)
    (pick : List Nat → Nat × Nat) (se : Bool) (st2 : BPETokenizer)
    (evs : List ((Nat × Nat) × Nat × List Nat))
    (hpick : pickMem pick) (hinv : VocabInv st)
    (hbytes : ∀ b ∈ input, b < 256)
    (h : train st input pick se = some (st2, evs)) :
    (evs.map (fun e => e.1)).Nodup ∧
    ∀ e ∈ evs, lookupM st2.pairs e.1 = some e.2.1 := by
  rw [train] at h
  have hgo := train_go_inv pick se hpick (st.max_vocab_size - st.next_id) st
    (string_to_byte input) [] st2 evs (Nat.le_refl _) hinv ?_
    (fun e he => by cases he) (by simp) h
  · exact ⟨hgo.2.1, hgo.2.2⟩
  · intro x hx
    have hb := hbytes x hx
    obtain ⟨h1, h2, h3, h4, h5, h6⟩ := hinv
    refine ⟨by omega, by rw [h1 x hb]; rfl, ?_⟩
    exact lookupM_eq_none fun q hq => by have := (h4 q hq).1; omega

/-- C8, witness: the single-call property checked on the one-merge run that trains
`aa` from a fresh tokenizer. -/
theorem C8_single_call_append_only_witness :
    (([((97, 97), 256, [97, 97])].map
      (fun e : (Nat × Nat) × Nat × List Nat => e.1)).Nodup ∧
    ∀ e ∈ [((97, 97), 256, [97, 97])], lookupM demoB1.pairs e.1 = some e.2.1) :=
  C8_single_call_append_only (init0 300) [97, 97] canonicalPick false demoB1
    [((97, 97), 256, [97, 97])] canonicalPick_mem (VocabInv_init0 300)
    (by decide) train_demoB1_eq

/-- C9: encode leaves the vocabulary unchanged.  Whenever encode completes with a
token sequence, the state after encode has the same ID-to-token table, the same
pair-to-ID merge table, the same special-token tables and the same ID counter as the
state before; the only reads that could mutate (index-operator reads of `pairs` and
`special_to_id`) are guarded by `find` and never insert. -/
theorem C9_encode_no_mutation (st : BPETokenizer) (input out : List Nat)
    (h : (encode st input).1 = some out) :
    (encode st input).2.id_to_token = st.id_to_token ∧
    (encode st input).2.pairs = st.pairs ∧
    (encode st input).2.special_to_id = st.special_to_id ∧
    (encode st input).2.id_to_special = st.id_to_special ∧
    (encode st input).2.next_id = st.next_id := by
  rw [encode_state_eq st input]
  exact ⟨rfl, rfl, rfl, rfl, rfl⟩

/-- C9, witness: the frame property checked on the encode run of the byte text `a`
on a fresh tokenizer. -/
theorem C9_encode_no_mutation_witness :
    (encode (init0 1000) [97]).2.id_to_token = (init0 1000).id_to_token ∧
    (encode (init0 1000) [97]).2.pairs = (init0 1000).pairs ∧
    (encode (init0 1000) [97]).2.special_to_id = (init0 1000).special_to_id ∧
    (encode (init0 1000) [97]).2.id_to_special = (init0 1000).id_to_special ∧
    (encode (init0 1000) [97]).2.next_id = (init0 1000).next_id :=
  C9_encode_no_mutation (init0 1000) [97] (encode_loop (init0 1000).pairs [97]).1
    (encode_no_special_sub (init0 1000) [97] (VocabInv_init0 1000) (by decide)
      (by decide) (fun q hq => by cases hq)).1

/-- C10: registering a special token twice is idempotent: after the first call the
string is mapped (so the second call finds it), the second call returns the state of
the first call unchanged, and in particular consumes no new ID and leaves
`vocab_size()` unchanged. -/
theorem C10_register_idempotent (st : BPETokenizer) (t : List Nat) :
    (lookupM (register_special_token st t).special_to_id t).isSome = true ∧
    register_special_token (register_special_token st t) t =
      register_special_token st t ∧
    vocab_size (register_special_token (register_special_token st t) t) =
      vocab_size (register_special_token st t) := by
  have hs : (lookupM (register_special_token st t).special_to_id t).isSome = true := by
    rw [register_special_token]
    by_cases h : (lookupM st.special_to_id t).isSome
    · rw [if_pos h]
      exact h
    · rw [if_neg h]
      dsimp only
      rw [lookupM_mapInsert_self]
      rfl
  have hr : register_special_token (register_special_token st t) t =
      register_special_token st t := by
    conv_lhs => rw [register_special_token]
    rw [if_pos hs]
  exact ⟨hs, hr, by rw [hr]⟩
